import Mathlib

/-!
# Verification of the pitch-detector audio analysis core

Shallow embedding of the repository's audio analysis pipeline:

* frequency → note mapping (`findClosestNote`, from the audio-processor module),
* the YIN pitch estimator (`yinPitchDetection`),
* the autocorrelation estimator and the gated frequency estimation
  (`autoCorrelate`, `estimateFrequency`),
* the main entry point (`detectPitch`) over an explicit heap of the
  module-level reusable buffers,
* the log-mel feature extractor (`makeLogMel`) of the ML path,
* the note-stability tracker of the listening screen (`trackerStep`),
* the ML output scoring/suppression step (`scoreOutput`).

Floating-point arithmetic is idealised: transcendental computations
(`Math.log2`, `Math.log10`, `Math.cos`, `Math.sqrt`) are modelled over `ℝ`,
while the purely rational parts of the pipeline (PCM normalisation,
difference functions, weighted averages, confidence scores) are modelled
over `ℚ` so that concrete runs are decidable.  JavaScript's `Math.round`
is `⌊x + 1/2⌋`, and the `%` operator on possibly-negative integers is
`Int.tmod` (remainder of truncated division, sign of the dividend).
-/

namespace PitchDetect

/-- JavaScript `Math.round`: round half toward `+∞`. -/
noncomputable def jround (x : ℝ) : ℤ := ⌊x + 1/2⌋

theorem jround_eq_iff {x : ℝ} {n : ℤ} :
    jround x = n ↔ (n : ℝ) - 1/2 ≤ x ∧ x < (n : ℝ) + 1/2 := by
  unfold jround
  rw [Int.floor_eq_iff]
  constructor
  · rintro ⟨h1, h2⟩
    exact ⟨by linarith, by linarith⟩
  · rintro ⟨h1, h2⟩
    exact ⟨by linarith, by linarith⟩

theorem jround_intCast (n : ℤ) : jround (n : ℝ) = n := by
  rw [jround_eq_iff]
  exact ⟨by linarith, by linarith⟩

/-! ## Note mapper (audio processor module)

`NOTE_FREQUENCIES`, `ALL_NOTES`, `SETTINGS`, `calculateCents`,
`getOctaveFromFrequency` and `findClosestNote` from the audio-processor
source file. -/

/-- All notes in chromatic scale (`ALL_NOTES`). -/
def ALL_NOTES : List String :=
  ["C", "C#", "D", "D#", "E", "F"] ++ ["F#", "G", "G#", "A", "A#", "B"]

/-- Note frequencies, A4 = 440 Hz standard tuning (`NOTE_FREQUENCIES`,
name-keyed object; unknown names — impossible for table hits — map to 0). -/
def NOTE_FREQUENCIES : String → ℚ
  | "C" => 261.63
  | "C#" => 277.18
  | "D" => 293.66
  | "D#" => 311.13
  | "E" => 329.63
  | "F" => 349.23
  | "F#" => 369.99
  | "G" => 392.00
  | "G#" => 415.30
  | "A" => 440.00
  | "A#" => 466.16
  | "B" => 493.88
  | _ => 0

/-- The pitch detection result type (`NotePitch`). -/
structure NotePitch where
  note : String
  octave : ℤ
  frequency : ℝ
  cents : ℤ

/-- `calculateCents`: cents deviation of `detected` from `target`. -/
noncomputable def calculateCents (detected target : ℝ) : ℤ :=
  jround (1200 * Real.logb 2 (detected / target))

/-- `getOctaveFromFrequency`: octave of `freq` relative to the note's
octave-4 reference frequency. -/
noncomputable def getOctaveFromFrequency (freq : ℝ) (note : String) : ℤ :=
  jround (4 + Real.logb 2 (freq / (NOTE_FREQUENCIES note : ℝ)))

/-- `halfStepsFromA4` of `findClosestNote`:
`Math.round(12 * Math.log2(frequency / refFreq))`. -/
noncomputable def halfStepsFromA4 (frequency : ℝ) : ℤ :=
  jround (12 * Real.logb 2 (frequency / 440))

/-- `noteIndex` of `findClosestNote`: `(9 + halfStepsFromA4) % 12` with
JavaScript `%` semantics (`Int.tmod`, remainder with the dividend's sign). -/
noncomputable def noteIndexAt (frequency : ℝ) : ℤ :=
  (9 + halfStepsFromA4 frequency).tmod 12

/-- `note` of `findClosestNote`: `ALL_NOTES[noteIndex]`. -/
noncomputable def noteAt (frequency : ℝ) : String :=
  ALL_NOTES.getD (noteIndexAt frequency).toNat ""

/-- `perfectFreq` of `findClosestNote`: the "perfect" frequency
`noteFreqInOctave4 * Math.pow(2, octave - 4)` of the chosen note. -/
noncomputable def perfectFreqAt (frequency : ℝ) : ℝ :=
  (NOTE_FREQUENCIES (noteAt frequency) : ℝ) *
    2 ^ (getOctaveFromFrequency frequency (noteAt frequency) - 4)

/-- `findClosestNote`: frequency → `NotePitch` (or `null`), guarded by
`frequency < minFrequency || frequency > maxFrequency` and by
`noteIndex < 0 || noteIndex >= ALL_NOTES.length`. -/
noncomputable def findClosestNote (frequency : ℝ) : Option NotePitch :=
  if frequency < 80 ∨ frequency > 1500 then none
  else if noteIndexAt frequency < 0 ∨ 12 ≤ noteIndexAt frequency then none
  else
    some ⟨noteAt frequency, getOctaveFromFrequency frequency (noteAt frequency),
      frequency, calculateCents frequency (perfectFreqAt frequency)⟩

theorem logb_two_half : Real.logb 2 (1/2 : ℝ) = -1 := by
  rw [show (1/2 : ℝ) = 2⁻¹ by norm_num, Real.logb_inv,
    Real.logb_self_eq_one (by norm_num)]

/-- **C1, behaviour at the failing input.**  220 Hz (the note A3) lies inside
the advertised detectable range `[80, 1500]`, yet `findClosestNote`
returns `null`: the half-step count is `round(12·log2(220/440)) = -12`, so
the JavaScript expression `(9 + (-12)) % 12` evaluates to `-3`, and the
negative-index guard rejects the note. -/
theorem findClosestNote_at_220 : findClosestNote 220 = none := by
  have hlog : Real.logb 2 ((220 : ℝ) / 440) = -1 := by
    rw [show (220 : ℝ) / 440 = 1/2 by norm_num, logb_two_half]
  have hround : halfStepsFromA4 220 = -12 := by
    unfold halfStepsFromA4
    rw [hlog, show (12 : ℝ) * (-1) = ((-12 : ℤ) : ℝ) by norm_num, jround_intCast]
  have hni : noteIndexAt 220 = -3 := by
    unfold noteIndexAt
    rw [hround]
    decide
  unfold findClosestNote
  rw [if_neg (by push_neg; constructor <;> norm_num), if_pos]
  rw [hni]
  left
  decide

/-! ### Round-trip property of the note mapper (C7)

The reference table `NOTE_FREQUENCIES` holds 2-decimal roundings of the
equal-temperament frequencies.  The facts below bound `logb 2` of each table
entry tightly enough that rounding to half-steps recovers the intended
chromatic index exactly. -/

theorem le_logb2_of_zpow_le {x : ℝ} (hx : 0 < x) {n : ℤ} (h : (2:ℝ)^n ≤ x) :
    (n : ℝ) ≤ Real.logb 2 x := by
  rw [Real.le_logb_iff_rpow_le (by norm_num) hx, Real.rpow_intCast]
  exact h

theorem logb2_lt_of_lt_zpow {x : ℝ} (hx : 0 < x) {n : ℤ} (h : x < (2:ℝ)^n) :
    Real.logb 2 x < n := by
  rw [Real.logb_lt_iff_lt_rpow (by norm_num) hx, Real.rpow_intCast]
  exact h

theorem logb2_zpow (n : ℤ) : Real.logb 2 ((2:ℝ)^n) = n := by
  rw [← Real.rpow_intCast 2 n, Real.logb_rpow (by norm_num) (by norm_num)]

/-- Transfer a sandwich of `r^24` between integer powers of two to a
sandwich of `12·log2 r` around the half-integer `m ± 1/2`. -/
theorem twelve_logb_bounds {r : ℝ} (hr : 0 < r) {m : ℤ}
    (hlow : (2:ℝ)^(2*m - 1) ≤ r^(24:ℕ)) (hhigh : r^(24:ℕ) < (2:ℝ)^(2*m + 1)) :
    ((m : ℝ) - 1/2 ≤ 12 * Real.logb 2 r) ∧ (12 * Real.logb 2 r < (m : ℝ) + 1/2) := by
  have h24 : Real.logb 2 (r ^ (24:ℕ)) = 24 * Real.logb 2 r := by
    rw [Real.logb_pow]
    norm_num
  have hp : (0:ℝ) < r ^ (24:ℕ) := pow_pos hr 24
  have h1 : ((2*m - 1 : ℤ) : ℝ) ≤ 24 * Real.logb 2 r := by
    rw [← h24]
    exact le_logb2_of_zpow_le hp hlow
  have h2 : 24 * Real.logb 2 r < ((2*m + 1 : ℤ) : ℝ) := by
    rw [← h24]
    exact logb2_lt_of_lt_zpow hp hhigh
  push_cast at h1 h2
  constructor <;> linarith

/-- `12·log2(base/440)` of the table entry at chromatic index `ni` lies
within a half unit of `ni - 9`. -/
theorem noteBase_logb_bounds (ni : ℤ) (h1 : 0 ≤ ni) (h2 : ni < 12) :
    ((ni : ℝ) - 9 - 1/2 ≤
      12 * Real.logb 2 ((NOTE_FREQUENCIES (ALL_NOTES.getD ni.toNat "") : ℝ) / 440)) ∧
    (12 * Real.logb 2 ((NOTE_FREQUENCIES (ALL_NOTES.getD ni.toNat "") : ℝ) / 440) <
      (ni : ℝ) - 9 + 1/2) := by
  interval_cases ni
  · rw [show NOTE_FREQUENCIES (ALL_NOTES.getD ((0:ℤ)).toNat "") = 261.63 from rfl]
    have h := twelve_logb_bounds (r := ((261.63 : ℚ) : ℝ) / 440) (by norm_num)
      (m := -9) (by norm_num) (by norm_num)
    push_cast at h ⊢
    exact ⟨by linarith [h.1], by linarith [h.2]⟩
  · rw [show NOTE_FREQUENCIES (ALL_NOTES.getD ((1:ℤ)).toNat "") = 277.18 from rfl]
    have h := twelve_logb_bounds (r := ((277.18 : ℚ) : ℝ) / 440) (by norm_num)
      (m := -8) (by norm_num) (by norm_num)
    push_cast at h ⊢
    exact ⟨by linarith [h.1], by linarith [h.2]⟩
  · rw [show NOTE_FREQUENCIES (ALL_NOTES.getD ((2:ℤ)).toNat "") = 293.66 from rfl]
    have h := twelve_logb_bounds (r := ((293.66 : ℚ) : ℝ) / 440) (by norm_num)
      (m := -7) (by norm_num) (by norm_num)
    push_cast at h ⊢
    exact ⟨by linarith [h.1], by linarith [h.2]⟩
  · rw [show NOTE_FREQUENCIES (ALL_NOTES.getD ((3:ℤ)).toNat "") = 311.13 from rfl]
    have h := twelve_logb_bounds (r := ((311.13 : ℚ) : ℝ) / 440) (by norm_num)
      (m := -6) (by norm_num) (by norm_num)
    push_cast at h ⊢
    exact ⟨by linarith [h.1], by linarith [h.2]⟩
  · rw [show NOTE_FREQUENCIES (ALL_NOTES.getD ((4:ℤ)).toNat "") = 329.63 from rfl]
    have h := twelve_logb_bounds (r := ((329.63 : ℚ) : ℝ) / 440) (by norm_num)
      (m := -5) (by norm_num) (by norm_num)
    push_cast at h ⊢
    exact ⟨by linarith [h.1], by linarith [h.2]⟩
  · rw [show NOTE_FREQUENCIES (ALL_NOTES.getD ((5:ℤ)).toNat "") = 349.23 from rfl]
    have h := twelve_logb_bounds (r := ((349.23 : ℚ) : ℝ) / 440) (by norm_num)
      (m := -4) (by norm_num) (by norm_num)
    push_cast at h ⊢
    exact ⟨by linarith [h.1], by linarith [h.2]⟩
  · rw [show NOTE_FREQUENCIES (ALL_NOTES.getD ((6:ℤ)).toNat "") = 369.99 from rfl]
    have h := twelve_logb_bounds (r := ((369.99 : ℚ) : ℝ) / 440) (by norm_num)
      (m := -3) (by norm_num) (by norm_num)
    push_cast at h ⊢
    exact ⟨by linarith [h.1], by linarith [h.2]⟩
  · rw [show NOTE_FREQUENCIES (ALL_NOTES.getD ((7:ℤ)).toNat "") = 392.00 from rfl]
    have h := twelve_logb_bounds (r := ((392.00 : ℚ) : ℝ) / 440) (by norm_num)
      (m := -2) (by norm_num) (by norm_num)
    push_cast at h ⊢
    exact ⟨by linarith [h.1], by linarith [h.2]⟩
  · rw [show NOTE_FREQUENCIES (ALL_NOTES.getD ((8:ℤ)).toNat "") = 415.30 from rfl]
    have h := twelve_logb_bounds (r := ((415.30 : ℚ) : ℝ) / 440) (by norm_num)
      (m := -1) (by norm_num) (by norm_num)
    push_cast at h ⊢
    exact ⟨by linarith [h.1], by linarith [h.2]⟩
  · rw [show NOTE_FREQUENCIES (ALL_NOTES.getD ((9:ℤ)).toNat "") = 440.00 from rfl]
    have h := twelve_logb_bounds (r := ((440.00 : ℚ) : ℝ) / 440) (by norm_num)
      (m := 0) (by norm_num) (by norm_num)
    push_cast at h ⊢
    exact ⟨by linarith [h.1], by linarith [h.2]⟩
  · rw [show NOTE_FREQUENCIES (ALL_NOTES.getD ((10:ℤ)).toNat "") = 466.16 from rfl]
    have h := twelve_logb_bounds (r := ((466.16 : ℚ) : ℝ) / 440) (by norm_num)
      (m := 1) (by norm_num) (by norm_num)
    push_cast at h ⊢
    exact ⟨by linarith [h.1], by linarith [h.2]⟩
  · rw [show NOTE_FREQUENCIES (ALL_NOTES.getD ((11:ℤ)).toNat "") = 493.88 from rfl]
    have h := twelve_logb_bounds (r := ((493.88 : ℚ) : ℝ) / 440) (by norm_num)
      (m := 2) (by norm_num) (by norm_num)
    push_cast at h ⊢
    exact ⟨by linarith [h.1], by linarith [h.2]⟩

/-- Magnitude facts about the table entries: every base frequency lies in
`[261.63, 493.88]`, and the entries up to index 6 do not exceed `369.99`. -/
theorem noteBase_facts (ni : ℤ) (h1 : 0 ≤ ni) (h2 : ni < 12) :
    ((261.63 : ℝ) ≤ (NOTE_FREQUENCIES (ALL_NOTES.getD ni.toNat "") : ℝ)) ∧
    ((NOTE_FREQUENCIES (ALL_NOTES.getD ni.toNat "") : ℝ) ≤ 493.88) ∧
    (ni ≤ 6 → (NOTE_FREQUENCIES (ALL_NOTES.getD ni.toNat "") : ℝ) ≤ 369.99) := by
  interval_cases ni
  · rw [show NOTE_FREQUENCIES (ALL_NOTES.getD ((0:ℤ)).toNat "") = 261.63 from rfl]
    exact ⟨by norm_num, by norm_num, fun _ => by norm_num⟩
  · rw [show NOTE_FREQUENCIES (ALL_NOTES.getD ((1:ℤ)).toNat "") = 277.18 from rfl]
    exact ⟨by norm_num, by norm_num, fun _ => by norm_num⟩
  · rw [show NOTE_FREQUENCIES (ALL_NOTES.getD ((2:ℤ)).toNat "") = 293.66 from rfl]
    exact ⟨by norm_num, by norm_num, fun _ => by norm_num⟩
  · rw [show NOTE_FREQUENCIES (ALL_NOTES.getD ((3:ℤ)).toNat "") = 311.13 from rfl]
    exact ⟨by norm_num, by norm_num, fun _ => by norm_num⟩
  · rw [show NOTE_FREQUENCIES (ALL_NOTES.getD ((4:ℤ)).toNat "") = 329.63 from rfl]
    exact ⟨by norm_num, by norm_num, fun _ => by norm_num⟩
  · rw [show NOTE_FREQUENCIES (ALL_NOTES.getD ((5:ℤ)).toNat "") = 349.23 from rfl]
    exact ⟨by norm_num, by norm_num, fun _ => by norm_num⟩
  · rw [show NOTE_FREQUENCIES (ALL_NOTES.getD ((6:ℤ)).toNat "") = 369.99 from rfl]
    exact ⟨by norm_num, by norm_num, fun _ => by norm_num⟩
  · rw [show NOTE_FREQUENCIES (ALL_NOTES.getD ((7:ℤ)).toNat "") = 392.00 from rfl]
    exact ⟨by norm_num, by norm_num, fun h => absurd h (by norm_num)⟩
  · rw [show NOTE_FREQUENCIES (ALL_NOTES.getD ((8:ℤ)).toNat "") = 415.30 from rfl]
    exact ⟨by norm_num, by norm_num, fun h => absurd h (by norm_num)⟩
  · rw [show NOTE_FREQUENCIES (ALL_NOTES.getD ((9:ℤ)).toNat "") = 440.00 from rfl]
    exact ⟨by norm_num, by norm_num, fun h => absurd h (by norm_num)⟩
  · rw [show NOTE_FREQUENCIES (ALL_NOTES.getD ((10:ℤ)).toNat "") = 466.16 from rfl]
    exact ⟨by norm_num, by norm_num, fun h => absurd h (by norm_num)⟩
  · rw [show NOTE_FREQUENCIES (ALL_NOTES.getD ((11:ℤ)).toNat "") = 493.88 from rfl]
    exact ⟨by norm_num, by norm_num, fun h => absurd h (by norm_num)⟩

/-- Decomposition of the note index along truncated division: the guard
`0 ≤ t.tmod 12` forces either a nonnegative quotient or the exact multiple
`t = -12`, given the range of half-step counts reachable from `[80, 1500]`. -/
theorem tmod_twelve_case (t ni k : ℤ) (hni : ni = t.tmod 12) (hk : k = t.tdiv 12)
    (h1 : 0 ≤ ni) (h2 : ni < 12) (hlb : -21 ≤ t) (hub : t ≤ 30) :
    t = 12 * k + ni ∧ (0 ≤ k ∨ (k = -1 ∧ ni = 0)) ∧ k ≤ 2 ∧ (k = 2 → ni ≤ 6) := by
  have hdm : 12 * k + ni = t := by
    rw [hni, hk]
    exact Int.tdiv_add_tmod t 12
  rcases le_or_lt 0 t with hpos | hneg
  · omega
  · have hsign : t.tmod 12 ≤ 0 := by
      have hneg' : (0:ℤ) ≤ -t := by omega
      have hmn := Int.tmod_nonneg 12 hneg'
      have hnegtmod : (-t).tmod 12 = -(t.tmod 12) := by
        rw [Int.tmod_def, Int.tmod_def, Int.neg_tdiv]
        ring
      omega
    omega

theorem tmod_twelve_add (ni k : ℤ) (h1 : 0 ≤ ni) (h2 : ni < 12) (hk : 0 ≤ k) :
    (ni + 12 * k).tmod 12 = ni := by
  rw [Int.tmod_eq_emod (by omega) (by omega)]
  omega

/-- **C7.**  The note mapper is idempotent as a round-trip: whenever
`findClosestNote f` returns a `NotePitch`, re-mapping the "perfect"
frequency reconstructed from its own output, `baseFreq * 2^(octave-4)`,
returns the same note and the same octave with cents equal to `0`. -/
theorem findClosestNote_roundtrip (f : ℝ) (np : NotePitch)
    (hmap : findClosestNote f = some np) :
    findClosestNote ((NOTE_FREQUENCIES np.note : ℝ) * 2 ^ (np.octave - 4)) =
      some ⟨np.note, np.octave,
        (NOTE_FREQUENCIES np.note : ℝ) * 2 ^ (np.octave - 4), 0⟩ := by
  obtain ⟨nn, no, nf, nc⟩ := np
  unfold findClosestNote at hmap
  by_cases hr : f < 80 ∨ f > 1500
  · rw [if_pos hr] at hmap
    exact absurd hmap (by simp)
  rw [if_neg hr] at hmap
  by_cases hg : noteIndexAt f < 0 ∨ 12 ≤ noteIndexAt f
  · rw [if_pos hg] at hmap
    exact absurd hmap (by simp)
  rw [if_neg hg] at hmap
  push_neg at hr hg
  obtain ⟨hf80, hf1500⟩ := hr
  obtain ⟨hni0, hni12⟩ := hg
  rw [Option.some.injEq, NotePitch.mk.injEq] at hmap
  obtain ⟨he1, he2, he3, he4⟩ := hmap
  subst he1
  subst he2
  dsimp only
  have hfpos : (0:ℝ) < f := by linarith
  set h0 := halfStepsFromA4 f with hh0
  set ni := noteIndexAt f with hhni
  set k := (9 + h0).tdiv 12 with hk
  -- bounds on `12·log2(f/440)` coming from the rounding of the half-step count
  have hL := jround_eq_iff.mp (show jround (12 * Real.logb 2 (f / 440)) = h0 from hh0.symm)
  have hnidef : ni = (9 + h0).tmod 12 := by
    rw [hhni, hh0]
    rfl
  clear_value h0 ni k
  have hfd_pos : (0:ℝ) < f / 440 := div_pos hfpos (by norm_num)
  have h24eq : Real.logb 2 ((f/440) ^ (24:ℕ)) = 24 * Real.logb 2 (f/440) := by
    rw [Real.logb_pow]
    norm_num
  have hub : 24 * Real.logb 2 (f/440) < 43 := by
    have hlt : (f/440) ^ (24:ℕ) < (2:ℝ)^(43:ℤ) := by
      calc (f/440) ^ (24:ℕ) ≤ ((1500:ℝ)/440) ^ (24:ℕ) :=
            pow_le_pow_left₀ (le_of_lt hfd_pos)
              ((div_le_div_iff_of_pos_right (by norm_num)).mpr hf1500) 24
        _ < (2:ℝ)^(43:ℤ) := by norm_num
    have hres := logb2_lt_of_lt_zpow (pow_pos hfd_pos 24) hlt
    rw [h24eq] at hres
    push_cast at hres
    linarith
  have hlb : (-61:ℝ) ≤ 24 * Real.logb 2 (f/440) := by
    have hle : (2:ℝ)^(-61:ℤ) ≤ (f/440) ^ (24:ℕ) := by
      calc (2:ℝ)^(-61:ℤ) ≤ ((80:ℝ)/440) ^ (24:ℕ) := by norm_num
        _ ≤ (f/440) ^ (24:ℕ) :=
            pow_le_pow_left₀ (by norm_num)
              ((div_le_div_iff_of_pos_right (by norm_num)).mpr hf80) 24
    have hres := le_logb2_of_zpow_le (pow_pos hfd_pos 24) hle
    rw [h24eq] at hres
    push_cast at hres
    linarith
  have hh0ub : h0 ≤ 21 := by
    have hc : (h0:ℝ) < 22 := by linarith [hL.1]
    have : h0 < 22 := by exact_mod_cast hc
    omega
  have hh0lb : -30 ≤ h0 := by
    have hc : (-31:ℝ) < (h0:ℝ) := by linarith [hL.2]
    have : (-31:ℤ) < h0 := by exact_mod_cast hc
    omega
  have hcase : (9 + h0 = 12 * k + ni) ∧ (0 ≤ k ∨ (k = -1 ∧ ni = 0)) ∧ k ≤ 2 ∧
      (k = 2 → ni ≤ 6) :=
    tmod_twelve_case (9 + h0) ni k hnidef hk hni0 hni12 (by omega) (by omega)
  have hcR : (9:ℝ) + (h0:ℝ) = 12*(k:ℝ) + (ni:ℝ) := by exact_mod_cast hcase.1
  -- the base frequency of the mapped note
  set s := noteAt f with hs
  have hsv : s = ALL_NOTES.getD ni.toNat "" := by
    rw [hs, hhni]
    rfl
  clear_value s
  set B := (NOTE_FREQUENCIES s : ℝ) with hB
  clear_value B
  have hBfacts := noteBase_facts ni hni0 hni12
  rw [← hsv, ← hB] at hBfacts
  have hBpos : (0:ℝ) < B := lt_of_lt_of_le (by norm_num) hBfacts.1
  have hΛ := noteBase_logb_bounds ni hni0 hni12
  rw [← hsv, ← hB] at hΛ
  -- the octave computed from `f` is `4 + k`
  have hLf : Real.logb 2 (f / B) =
      Real.logb 2 (f/440) - Real.logb 2 (B/440) := by
    rw [show f / B = (f/440) / (B/440) from
      (div_div_div_cancel_right₀ (show (440:ℝ) ≠ 0 by norm_num) f B).symm]
    exact Real.logb_div (ne_of_gt hfd_pos) (ne_of_gt (div_pos hBpos (by norm_num)))
  have hoct : getOctaveFromFrequency f s = 4 + k := by
    unfold getOctaveFromFrequency
    rw [← hB, jround_eq_iff, hLf]
    push_cast
    constructor
    · linarith [hL.1, hΛ.2, hcR]
    · linarith [hL.2, hΛ.1, hcR]
  rw [hoct]
  rw [show (4:ℤ) + k - 4 = k by ring]
  set pf := B * (2:ℝ)^k with hpf
  clear_value pf
  have h2kpos : (0:ℝ) < (2:ℝ)^k := zpow_pos (by norm_num) k
  have hpfpos : (0:ℝ) < pf := hpf ▸ mul_pos hBpos h2kpos
  have hkub : k ≤ 2 := hcase.2.2.1
  have hpfb : 80 ≤ pf ∧ pf ≤ 1500 := by
    rcases hcase.2.1 with hk0 | ⟨hkm1, hnieq⟩
    · interval_cases k
      · rw [hpf, show ((2:ℝ)^(0:ℤ)) = 1 by norm_num, mul_one]
        exact ⟨by linarith [hBfacts.1], by linarith [hBfacts.2.1]⟩
      · rw [hpf, show ((2:ℝ)^(1:ℤ)) = 2 by norm_num]
        exact ⟨by linarith [hBfacts.1], by linarith [hBfacts.2.1]⟩
      · have hni6 : ni ≤ 6 := hcase.2.2.2 rfl
        have hB6 : B ≤ 369.99 := hBfacts.2.2 hni6
        rw [hpf, show ((2:ℝ)^(2:ℤ)) = 4 by norm_num]
        exact ⟨by linarith [hBfacts.1], by linarith⟩
    · have hBC : B = ((261.63 : ℚ) : ℝ) := by
        rw [hB, hsv, hnieq]
        rw [show NOTE_FREQUENCIES (ALL_NOTES.getD ((0:ℤ)).toNat "") = 261.63 from rfl]
      rw [hpf, hBC, hkm1, show ((2:ℝ)^(-1:ℤ)) = 1/2 by norm_num]
      constructor
      · norm_num
      · norm_num
  -- half-step count of the reconstructed perfect frequency
  have hlogpf : Real.logb 2 (pf/440) = (k:ℝ) + Real.logb 2 (B/440) := by
    rw [hpf, show B * (2:ℝ)^k / 440 = (B/440) * (2:ℝ)^k by ring]
    rw [Real.logb_mul (ne_of_gt (div_pos hBpos (by norm_num))) (ne_of_gt h2kpos)]
    rw [logb2_zpow]
    ring
  have hhalfpf : halfStepsFromA4 pf = ni - 9 + 12*k := by
    unfold halfStepsFromA4
    rw [hlogpf, jround_eq_iff]
    push_cast
    constructor
    · linarith [hΛ.1]
    · linarith [hΛ.2]
  have hnipf : noteIndexAt pf = ni := by
    unfold noteIndexAt
    rw [hhalfpf, show 9 + (ni - 9 + 12*k) = ni + 12*k by ring]
    rcases hcase.2.1 with hk0 | ⟨hkm1, hnieq⟩
    · exact tmod_twelve_add ni k hni0 hni12 hk0
    · rw [hkm1, hnieq]
      decide
  have hguardpf : ¬(noteIndexAt pf < 0 ∨ 12 ≤ noteIndexAt pf) := by
    rw [hnipf]
    push_neg
    exact ⟨hni0, hni12⟩
  have hnotepf : noteAt pf = s := by
    rw [show noteAt pf = ALL_NOTES.getD (noteIndexAt pf).toNat "" from rfl, hnipf]
    exact hsv.symm
  have hoctpf : getOctaveFromFrequency pf s = 4 + k := by
    unfold getOctaveFromFrequency
    rw [← hB]
    rw [show pf / B = (2:ℝ)^k by
      rw [hpf, mul_comm, mul_div_assoc, div_self (ne_of_gt hBpos), mul_one]]
    rw [logb2_zpow]
    rw [show (4:ℝ) + (k:ℝ) = ((4 + k : ℤ):ℝ) by push_cast; ring]
    exact jround_intCast _
  have hcentspf : calculateCents pf (perfectFreqAt pf) = 0 := by
    have hperfpf : perfectFreqAt pf = pf := by
      unfold perfectFreqAt
      rw [hnotepf, ← hB, hoctpf, show (4:ℤ) + k - 4 = k by ring, ← hpf]
    rw [hperfpf]
    unfold calculateCents
    rw [div_self (ne_of_gt hpfpos), Real.logb_one]
    rw [show (1200:ℝ) * 0 = ((0:ℤ):ℝ) by norm_num]
    exact jround_intCast 0
  -- assemble the evaluation of `findClosestNote pf`
  unfold findClosestNote
  rw [if_neg (by push_neg; exact ⟨by linarith [hpfb.1], by linarith [hpfb.2]⟩)]
  rw [if_neg hguardpf]
  rw [hnotepf, hoctpf, hcentspf]

/-- Concrete evaluation: 440 Hz maps to A4 with 0 cents. -/
theorem findClosestNote_at_440 :
    findClosestNote 440 = some ⟨"A", 4, (440:ℝ), 0⟩ := by
  have hA : (NOTE_FREQUENCIES "A" : ℝ) = 440 := by
    rw [show NOTE_FREQUENCIES "A" = 440.00 from rfl]
    norm_num
  have hlog1 : Real.logb 2 ((440:ℝ)/440) = 0 := by
    rw [div_self (by norm_num : (440:ℝ) ≠ 0), Real.logb_one]
  have hhalf : halfStepsFromA4 440 = 0 := by
    unfold halfStepsFromA4
    rw [hlog1, show (12:ℝ) * 0 = ((0:ℤ):ℝ) by norm_num, jround_intCast]
  have hni : noteIndexAt 440 = 9 := by
    unfold noteIndexAt
    rw [hhalf]
    decide
  have hnote : noteAt 440 = "A" := by
    unfold noteAt
    rw [hni]
    rfl
  have hoct : getOctaveFromFrequency 440 "A" = 4 := by
    unfold getOctaveFromFrequency
    rw [hA, hlog1, show (4:ℝ) + 0 = ((4:ℤ):ℝ) by norm_num, jround_intCast]
  have hcents : calculateCents 440 (perfectFreqAt 440) = 0 := by
    have hperf : perfectFreqAt 440 = 440 := by
      unfold perfectFreqAt
      rw [hnote, hoct, hA]
      norm_num
    rw [hperf]
    unfold calculateCents
    rw [hlog1, show (1200:ℝ) * 0 = ((0:ℤ):ℝ) by norm_num, jround_intCast]
  unfold findClosestNote
  rw [if_neg (by push_neg; constructor <;> norm_num)]
  rw [if_neg (by rw [hni]; push_neg; constructor <;> norm_num)]
  rw [hnote, hoct, hcents]

/-- Witness for C7 at the A4 = 440 Hz input. -/
theorem findClosestNote_roundtrip_witness :
    findClosestNote ((NOTE_FREQUENCIES "A" : ℝ) * 2 ^ ((4:ℤ) - 4)) =
      some ⟨"A", 4, (NOTE_FREQUENCIES "A" : ℝ) * 2 ^ ((4:ℤ) - 4), 0⟩ :=
  findClosestNote_roundtrip 440 ⟨"A", 4, 440, 0⟩ findClosestNote_at_440

/-! ## YIN pitch estimator (`yinPitchDetection`)

The buffer values are exact rationals, so the whole estimator is
computable.  JavaScript `NaN` values (division by a zero running sum, and
reads past the end of `yinBuffer`) are modelled as `none`; every `<`
comparison against them is `false`, exactly as in JS. -/

/-- Difference function of `yinPitchDetection`:
`yinBuffer[τ] = Σ_{i < half} (buffer[i] - buffer[i+τ])²` (first loop). -/
def yinDiff (x : List ℚ) (half τ : ℕ) : ℚ :=
  ((List.range half).map (fun i => (x.getD i 0 - x.getD (i + τ) 0)^2)).sum

/-- The running sum `Σ_{j=1..τ} d(j)` accumulated by the cumulative
normalisation loop (it sums the raw difference values). -/
def yinRunningSum (x : List ℚ) (half τ : ℕ) : ℚ :=
  ((List.range τ).map (fun j => yinDiff x half (j+1))).sum

/-- Entry `yinBuffer[τ]` after cumulative mean normalisation:
`yinBuffer[0] = 1`, and `yinBuffer[τ] = d(τ) * τ / runningSum` for
`1 ≤ τ < half`.  `none` models JS `NaN` (`τ/0 = Infinity`, then
`0 * Infinity = NaN` when the running sum is zero) and the `undefined`
read past the buffer end. -/
def yinVal (x : List ℚ) (half τ : ℕ) : Option ℚ :=
  if τ = 0 then (if 0 < half then some 1 else none)
  else if τ < half then
    if yinRunningSum x half τ = 0 then none
    else some (yinDiff x half τ * τ / yinRunningSum x half τ)
  else none

/-- JavaScript `<` with a possibly-NaN left operand (false on NaN). -/
def ltNaN (a : Option ℚ) (c : ℚ) : Bool :=
  match a with
  | none => false
  | some v => decide (v < c)

/-- JavaScript `<` between two possibly-NaN operands (false on NaN). -/
def ltNaN2 (a b : Option ℚ) : Bool :=
  match a, b with
  | some v, some w => decide (v < w)
  | _, _ => false

/-- The forward walk of the threshold branch:
`while (tau+1 < half && yinBuffer[tau+1] < yinBuffer[tau]) tau++`.
The fuel argument bounds the iteration count; `fuel = half` always
suffices because `τ` stays below `half`. -/
def yinWalkAux (x : List ℚ) (half : ℕ) : ℕ → ℕ → ℕ
  | 0, τ => τ
  | fuel+1, τ =>
    if τ + 1 < half ∧ ltNaN2 (yinVal x half (τ+1)) (yinVal x half τ) then
      yinWalkAux x half fuel (τ+1)
    else τ

def yinWalk (x : List ℚ) (half τ : ℕ) : ℕ := yinWalkAux x half half τ

/-- The scan loop of `yinPitchDetection` over `τ = 2, 3, …, half-1`,
carrying `(minVal, minTau)`.  On the first normalized value below the 0.1
threshold the walked lag is returned (`Sum.inl`); otherwise the loop ends
with the tracked global minimum (`Sum.inr`).  Fuel as in `yinWalkAux`. -/
def yinScanAux (x : List ℚ) (half : ℕ) : ℕ → ℕ → ℚ → ℕ → ℕ ⊕ (ℚ × ℕ)
  | 0, _, minVal, minTau => .inr (minVal, minTau)
  | fuel+1, τ, minVal, minTau =>
    if τ < half then
      if ltNaN (yinVal x half τ) (1/10) then .inl (yinWalk x half τ)
      else if ltNaN (yinVal x half τ) minVal then
        yinScanAux x half fuel (τ+1) ((yinVal x half τ).getD minVal) τ
      else yinScanAux x half fuel (τ+1) minVal minTau
    else .inr (minVal, minTau)

/-- `yinPitchDetection`.  Scan starts at `τ = 2` with `minVal = 1`,
`minTau = 0`; threshold hit returns `sampleRate / τ` for the *integer*
walked lag; otherwise the global minimum below 0.5 is refined by parabolic
interpolation (the interpolation coefficients `a`, `b` are inlined).  A JS
`NaN` return — NaN neighbours in the parabolic fallback — is collapsed to
`none`; all callers treat `NaN` and `null` identically (both falsy). -/
def yinPitchDetection (x : List ℚ) (sampleRate : ℚ) : Option ℚ :=
  match yinScanAux x (x.length / 2) (x.length / 2) 2 1 0 with
  | .inl τ => some (sampleRate / (τ : ℚ))
  | .inr (minVal, minTau) =>
    if 0 < minTau ∧ minVal < 1/2 then
      match yinVal x (x.length / 2) (minTau - 1), yinVal x (x.length / 2) minTau,
          yinVal x (x.length / 2) (minTau + 1) with
      | some y1, some y2, some y3 =>
        if (y1 + y3 - 2*y2)/2 ≠ 0 then
          some (sampleRate /
            ((minTau : ℚ) - ((y3 - y1)/2) / (2 * ((y1 + y3 - 2*y2)/2))))
        else some (sampleRate / (minTau : ℚ))
      | _, _, _ => none
    else none

/-- The refinement step asserted by the specification for the *threshold*
branch, written from the spec's words: parabolic interpolation of the three
normalized-difference values around the accepted `τ`.  (The source applies
this formula only in the global-minimum fallback.) -/
def yinSpecRefinedTau (x : List ℚ) (τ : ℕ) : ℚ :=
  let y1 := (yinVal x (x.length / 2) (τ - 1)).getD 0
  let y2 := (yinVal x (x.length / 2) τ).getD 0
  let y3 := (yinVal x (x.length / 2) (τ + 1)).getD 0
  (τ : ℚ) - ((y3 - y1)/2) / (2 * ((y1 + y3 - 2*y2)/2))

/-- **C3, counterexample.**  On the 8-sample period-2 buffer
`[2, -1, 2, -1, 2, -1, 2, -1]` the first lag under the 0.1 threshold is
`τ = 2` (its normalized value is 0, and the walk stays at 2), and
`yinPitchDetection` returns the integer-lag frequency `16000 / 2 = 8000`;
the parabolic refinement around the accepted `τ` claimed by the spec would
instead give `16000 / 1.9 ≠ 8000`.  The threshold path performs no
interpolation. -/
theorem yin_threshold_no_interpolation :
    yinPitchDetection [2, -1, 2, -1, 2, -1, 2, -1] 16000 = some 8000 ∧
    ltNaN (yinVal [2, -1, 2, -1, 2, -1, 2, -1] 4 2) (1/10) = true ∧
    yinWalk [2, -1, 2, -1, 2, -1, 2, -1] 4 2 = 2 ∧
    16000 / yinSpecRefinedTau [2, -1, 2, -1, 2, -1, 2, -1] 2 ≠ (8000:ℚ) := by
  refine ⟨?_, ?_, ?_, ?_⟩
  · have hlen : (([2, -1, 2, -1, 2, -1, 2, -1] : List ℚ).length) / 2 = 4 := rfl
    unfold yinPitchDetection
    rw [hlen, show yinScanAux [2, -1, 2, -1, 2, -1, 2, -1] 4 4 2 1 0 = .inl 2 from by
      with_unfolding_all decide]
    dsimp only
    norm_num
  · with_unfolding_all decide
  · with_unfolding_all decide
  · rw [show yinSpecRefinedTau [2, -1, 2, -1, 2, -1, 2, -1] 2 = 19/10 from by
      with_unfolding_all decide]
    norm_num

/-- Scan-loop characterisation: if `τ₀` is the first lag at or after the
current position whose normalized value is below the threshold, the scan
returns the walked lag from `τ₀`, regardless of the carried minimum state. -/
theorem yinScanAux_finds (x : List ℚ) (half τ₀ : ℕ)
    (hhit : ltNaN (yinVal x half τ₀) (1/10) = true) (hlt : τ₀ < half) :
    ∀ fuel τ minVal minTau, τ ≤ τ₀ → half - τ ≤ fuel →
      (∀ τ', τ ≤ τ' → τ' < τ₀ → ltNaN (yinVal x half τ') (1/10) = false) →
      yinScanAux x half fuel τ minVal minTau = .inl (yinWalk x half τ₀) := by
  intro fuel
  induction fuel with
  | zero =>
    intro τ minVal minTau hle hfuel _
    exact absurd hfuel (by omega)
  | succ n ih =>
    intro τ minVal minTau hle hfuel hfirst
    rw [yinScanAux]
    rw [if_pos (show τ < half by omega)]
    by_cases heq : τ = τ₀
    · subst heq
      rw [if_pos hhit]
    · have hτlt : τ < τ₀ := by omega
      rw [if_neg (by rw [hfirst τ (le_refl τ) hτlt]; exact Bool.false_ne_true)]
      split
      · exact ih (τ+1) _ _ (by omega) (by omega) (fun τ' h1 h2 => hfirst τ' (by omega) h2)
      · exact ih (τ+1) _ _ (by omega) (by omega) (fun τ' h1 h2 => hfirst τ' (by omega) h2)

/-- **C3, amended.**  Scanning `τ` from 2 upward, the first `τ` whose
cumulative-mean-normalized difference value falls below the 0.1 threshold
is accepted after walking forward while the function keeps decreasing, and
the returned frequency is `sampleRate` divided by the *integer* walked lag
— no parabolic interpolation takes place on this path (interpolation is
applied only in the global-minimum fallback when no lag beats the
threshold). -/
theorem yinPitchDetection_threshold_path (x : List ℚ) (sr : ℚ) (τ₀ : ℕ)
    (h2 : 2 ≤ τ₀) (hlt : τ₀ < x.length / 2)
    (hhit : ltNaN (yinVal x (x.length / 2) τ₀) (1/10) = true)
    (hfirst : ∀ τ, 2 ≤ τ → τ < τ₀ → ltNaN (yinVal x (x.length / 2) τ) (1/10) = false) :
    yinPitchDetection x sr = some (sr / (yinWalk x (x.length / 2) τ₀ : ℚ)) := by
  unfold yinPitchDetection
  rw [yinScanAux_finds x (x.length / 2) τ₀ hhit hlt (x.length / 2) 2 1 0 h2
    (by omega) (fun τ' h1 h2' => hfirst τ' h1 h2')]

/-- Witness for the amended C3 on the period-2 buffer: the first lag below
threshold is `τ₀ = 2` and the output is `16000 / 2`. -/
theorem yinPitchDetection_threshold_path_witness :
    yinPitchDetection [2, -1, 2, -1, 2, -1, 2, -1] 16000 =
      some (16000 / (yinWalk [2, -1, 2, -1, 2, -1, 2, -1]
        (([2, -1, 2, -1, 2, -1, 2, -1] : List ℚ).length / 2) 2 : ℚ)) :=
  yinPitchDetection_threshold_path [2, -1, 2, -1, 2, -1, 2, -1] 16000 2
    (by norm_num) (by norm_num)
    (by with_unfolding_all decide)
    (fun τ h1 h2 => absurd (lt_of_le_of_lt h1 h2) (by omega))

/-! ## Stability tracker (`processAnalyzerResult` of the listening screen)

State held in `audioContextRef` (`noteHistory`, `stableCount`,
`previousNote`); one step processes a non-null analyzer result.  The
silence-timeout plumbing (a `setTimeout` reset) and the React `setState`
calls are outside the tracker arithmetic modelled here. -/

/-- The analyzer result consumed by the tracker (the screen's `NotePitch`;
`cents` and `frequency` are plain numbers there). -/
structure TrackerPitch where
  note : String
  octave : ℤ
  frequency : ℚ
  cents : ℚ
  deriving DecidableEq

/-- The tracker's mutable fields of `audioContextRef.current`. -/
@[ext]
structure TrackerState where
  noteHistory : List TrackerPitch
  stableCount : ℕ
  previousNote : String
  deriving DecidableEq

/-- Initial values: `noteHistory: [], stableCount: 0, previousNote: ''`. -/
def initTracker : TrackerState := ⟨[], 0, ""⟩

/-- The per-step display values produced by `processAnalyzerResult`. -/
structure TrackerOutput where
  currentNote : String
  frequency : ℚ
  cents : ℚ
  isStable : Bool
  deriving DecidableEq

/-- `noteHistory.push(result)` followed by `if (length > 3) shift()`. -/
def pushHistory (h : List TrackerPitch) (p : TrackerPitch) : List TrackerPitch :=
  if (h ++ [p]).length > 3 then (h ++ [p]).tail else h ++ [p]

/-- The weighted-sum loop: index `i` carries weight `i + 1`. -/
def weightedSum (h : List TrackerPitch) (f : TrackerPitch → ℚ) : ℚ :=
  (h.enum.map (fun e => ((e.1 + 1 : ℕ) : ℚ) * f e.2)).sum

/-- `sum.weight`: total of the weights `i + 1`. -/
def weightTotal (h : List TrackerPitch) : ℚ :=
  (h.enum.map (fun e => ((e.1 + 1 : ℕ) : ℚ))).sum

/-- `avgFreq = sum.frequency / sum.weight` on the pushed history. -/
def trackerAvgFreq (st : TrackerState) (p : TrackerPitch) : ℚ :=
  weightedSum (pushHistory st.noteHistory p) (fun q => q.frequency) /
    weightTotal (pushHistory st.noteHistory p)

/-- `avgCents = sum.cents / sum.weight` on the pushed history. -/
def trackerAvgCents (st : TrackerState) (p : TrackerPitch) : ℚ :=
  weightedSum (pushHistory st.noteHistory p) (fun q => q.cents) /
    weightTotal (pushHistory st.noteHistory p)

/-- One update of the `noteOccurrences` record:
`noteOccurrences[note] = (noteOccurrences[note] || 0) + 1`, keeping the
JavaScript object's string-key insertion order. -/
def addCount (l : List (String × ℕ)) (s : String) : List (String × ℕ) :=
  match l with
  | [] => [(s, 1)]
  | (t, c) :: rest => if t = s then (t, c+1) :: rest else (t, c) :: addCount rest s

/-- The `noteOccurrences` object built by the history loop, as an
insertion-ordered association list over a list of note names. -/
def noteCounts (ns : List String) : List (String × ℕ) :=
  ns.foldl addCount []

/-- `noteOccurrences` over the pitch history (the loop reads `pitch.note`). -/
def noteOccurrences (h : List TrackerPitch) : List (String × ℕ) :=
  noteCounts (h.map TrackerPitch.note)

/-- The most-frequent-note selection: start from
`(analyzerResult.note, 0)` and take any entry with a strictly greater
count, in `Object.entries` (insertion) order. -/
def pickMostFrequent (init : String) (l : List (String × ℕ)) : String × ℕ :=
  l.foldl (fun st e => if e.2 > st.2 then (e.1, e.2) else st) (init, 0)

/-- `mostFrequentNote` for a step. -/
def mostFrequent (st : TrackerState) (p : TrackerPitch) : String :=
  (pickMostFrequent p.note (noteOccurrences (pushHistory st.noteHistory p))).1

/-- `maxOccurrences` for a step. -/
def maxOccur (st : TrackerState) (p : TrackerPitch) : ℕ :=
  (pickMostFrequent p.note (noteOccurrences (pushHistory st.noteHistory p))).2

/-- `processAnalyzerResult` on a non-null result: push to history, average,
tally, pick the candidate, then the hysteresis branch — increment the
counter when the candidate equals `previousNote` (stable once the counter
reaches 2 and `|avgCents| < 25`), otherwise reset the counter, store the
new note, and require `maxOccurrences ≥ 2` and `|avgCents| < 15`. -/
def trackerStep (st : TrackerState) (p : TrackerPitch) : TrackerState × TrackerOutput :=
  if mostFrequent st p = st.previousNote then
    (⟨pushHistory st.noteHistory p, st.stableCount + 1, st.previousNote⟩,
     ⟨mostFrequent st p, trackerAvgFreq st p, trackerAvgCents st p,
      decide (2 ≤ st.stableCount + 1) && decide (|trackerAvgCents st p| < 25)⟩)
  else
    (⟨pushHistory st.noteHistory p, 0, mostFrequent st p⟩,
     ⟨mostFrequent st p, trackerAvgFreq st p, trackerAvgCents st p,
      decide (2 ≤ maxOccur st p) && decide (|trackerAvgCents st p| < 15)⟩)

/-! ### Counting lemmas for the occurrence tally -/

/-- First-match lookup in the association list. -/
def lookupCount (l : List (String × ℕ)) (t : String) : ℕ :=
  match l with
  | [] => 0
  | (u, c) :: rest => if u = t then c else lookupCount rest t

theorem lookupCount_addCount (l : List (String × ℕ)) (s t : String) :
    lookupCount (addCount l s) t =
      if t = s then lookupCount l t + 1 else lookupCount l t := by
  induction l with
  | nil =>
    by_cases h : t = s
    · subst h
      simp [addCount, lookupCount]
    · simp [addCount, lookupCount, h, Ne.symm h]
  | cons e rest ih =>
    obtain ⟨u, c⟩ := e
    by_cases hu : u = s
    · subst hu
      by_cases ht : t = u
      · subst ht
        simp [addCount, lookupCount]
      · simp [addCount, lookupCount, ht, Ne.symm ht]
    · by_cases ht : u = t
      · have hts : ¬ t = s := fun hh => hu (ht.trans hh)
        simp [addCount, lookupCount, hu, ht, hts]
      · simp [addCount, lookupCount, hu, ht, ih]

theorem lookupCount_noteCounts_aux (ns : List String) :
    ∀ (acc : List (String × ℕ)) (t : String),
      lookupCount (ns.foldl addCount acc) t = lookupCount acc t + ns.count t := by
  induction ns with
  | nil => simp [List.count_nil]
  | cons s rest ih =>
    intro acc t
    rw [List.foldl_cons, ih (addCount acc s) t, lookupCount_addCount]
    by_cases h : t = s
    · subst h
      rw [List.count_cons_self, if_pos rfl]
      omega
    · rw [List.count_cons_of_ne h, if_neg h]

theorem lookupCount_noteCounts (ns : List String) (t : String) :
    lookupCount (noteCounts ns) t = ns.count t := by
  rw [noteCounts, lookupCount_noteCounts_aux ns [] t]
  simp [lookupCount]

theorem addCount_keys (l : List (String × ℕ)) (s : String) :
    (addCount l s).map Prod.fst =
      if s ∈ l.map Prod.fst then l.map Prod.fst else l.map Prod.fst ++ [s] := by
  induction l with
  | nil => simp [addCount]
  | cons e rest ih =>
    obtain ⟨u, c⟩ := e
    by_cases hu : u = s
    · subst hu
      simp [addCount]
    · have hsu : ¬ s = u := fun h => hu h.symm
      by_cases hs : s ∈ rest.map Prod.fst
      · simp [addCount, hu, ih, hs, hsu]
      · simp [addCount, hu, ih, hs, hsu]

theorem noteCounts_keys_aux (ns : List String) :
    ∀ acc : List (String × ℕ),
      (∀ t, t ∈ ((ns.foldl addCount acc).map Prod.fst) ↔
        t ∈ acc.map Prod.fst ∨ t ∈ ns) ∧
      ((acc.map Prod.fst).Nodup → (((ns.foldl addCount acc)).map Prod.fst).Nodup) := by
  induction ns with
  | nil => simp
  | cons s rest ih =>
    intro acc
    rw [List.foldl_cons]
    constructor
    · intro t
      rw [(ih (addCount acc s)).1 t, addCount_keys]
      by_cases hs : s ∈ acc.map Prod.fst
      · simp only [if_pos hs, List.mem_cons]
        constructor
        · rintro (h | h)
          · exact Or.inl h
          · exact Or.inr (Or.inr h)
        · rintro (h | h | h)
          · exact Or.inl h
          · exact Or.inl (h ▸ hs)
          · exact Or.inr h
      · simp only [if_neg hs, List.mem_append, List.mem_singleton, List.mem_cons]
        tauto
    · intro hnd
      refine (ih (addCount acc s)).2 ?_
      rw [addCount_keys]
      by_cases hs : s ∈ acc.map Prod.fst
      · rwa [if_pos hs]
      · rw [if_neg hs]
        refine List.Nodup.append hnd (List.nodup_singleton s) ?_
        intro x hx hxs
        rw [List.mem_singleton] at hxs
        exact hs (hxs ▸ hx)

theorem mem_keys_noteCounts (ns : List String) (t : String) :
    t ∈ (noteCounts ns).map Prod.fst ↔ t ∈ ns := by
  rw [noteCounts]
  rw [(noteCounts_keys_aux ns []).1 t]
  simp

theorem noteCounts_keys_nodup (ns : List String) :
    ((noteCounts ns).map Prod.fst).Nodup := by
  rw [noteCounts]
  exact (noteCounts_keys_aux ns []).2 (by simp)

theorem mem_of_lookupCount (l : List (String × ℕ)) (m : String)
    (hm : m ∈ l.map Prod.fst) : (m, lookupCount l m) ∈ l := by
  induction l with
  | nil => simp at hm
  | cons e rest ih =>
    obtain ⟨u, c⟩ := e
    by_cases hu : u = m
    · subst hu
      simp [lookupCount]
    · have : m ∈ rest.map Prod.fst := by
        rcases List.mem_cons.mp hm with h | h
        · exact absurd h.symm hu
        · exact h
      simp only [lookupCount, if_neg hu]
      exact List.mem_cons_of_mem _ (ih this)

theorem lookupCount_of_mem_nodup (l : List (String × ℕ))
    (hnd : (l.map Prod.fst).Nodup) :
    ∀ e ∈ l, lookupCount l e.1 = e.2 := by
  induction l with
  | nil => simp
  | cons a rest ih =>
    obtain ⟨u, c⟩ := a
    intro e he
    rcases List.mem_cons.mp he with h | h
    · subst h
      simp [lookupCount]
    · have hu : u ≠ e.1 := by
        intro hcontra
        have : e.1 ∈ rest.map Prod.fst := List.mem_map_of_mem Prod.fst h
        rw [List.map_cons, List.nodup_cons] at hnd
        exact hnd.1 (hcontra ▸ this)
      simp only [lookupCount, if_neg hu]
      exact ih (by rw [List.map_cons, List.nodup_cons] at hnd; exact hnd.2) e h

/-- The selection fold returns the uniquely most frequent entry: once the
state reaches `(m, cm)` no other entry (all strictly smaller) replaces it,
and before that the running maximum stays below `cm`. -/
theorem pickMostFrequent_go (m : String) (cm : ℕ) :
    ∀ (l : List (String × ℕ)) (cur : String) (mx : ℕ),
      (∀ e ∈ l, e.1 ≠ m → e.2 < cm) →
      (((m, cm) ∈ l ∧ mx < cm ∧ (l.map Prod.fst).Nodup) ∨
       ((¬ m ∈ l.map Prod.fst) ∧ cur = m ∧ mx = cm)) →
      l.foldl (fun st e => if e.2 > st.2 then (e.1, e.2) else st) (cur, mx) = (m, cm) := by
  intro l
  induction l with
  | nil =>
    rintro cur mx _ (⟨hmem, _, _⟩ | ⟨_, hcur, hmx⟩)
    · exact absurd hmem (List.not_mem_nil _)
    · rw [List.foldl_nil, hcur, hmx]
  | cons e rest ih =>
    obtain ⟨t, c⟩ := e
    rintro cur mx hsmall (⟨hmem, hmx, hnodup⟩ | ⟨hnotin, hcur, hmx⟩)
    · rw [List.map_cons, List.nodup_cons] at hnodup
      rcases List.mem_cons.mp hmem with heq | hmemr
      · have ht : t = m := (Prod.mk.injEq _ _ _ _ ▸ heq.symm).1
        have hc : c = cm := (Prod.mk.injEq _ _ _ _ ▸ heq.symm).2
        subst ht
        subst hc
        rw [List.foldl_cons, if_pos (by simpa using hmx)]
        refine ih t c (fun e he hne => hsmall e (List.mem_cons_of_mem _ he) hne)
          (Or.inr ⟨hnodup.1, rfl, rfl⟩)
      · have ht : t ≠ m := by
          intro hcontra
          refine hnodup.1 ?_
          rw [hcontra]
          exact List.mem_map.mpr ⟨(m, cm), hmemr, rfl⟩
        have hc : c < cm := hsmall (t, c) (List.mem_cons_self _ _) ht
        rw [List.foldl_cons]
        by_cases hgt : c > mx
        · rw [if_pos hgt]
          exact ih t c (fun e he hne => hsmall e (List.mem_cons_of_mem _ he) hne)
            (Or.inl ⟨hmemr, hc, hnodup.2⟩)
        · rw [if_neg hgt]
          exact ih cur mx (fun e he hne => hsmall e (List.mem_cons_of_mem _ he) hne)
            (Or.inl ⟨hmemr, hmx, hnodup.2⟩)
    · have ht : t ≠ m := by
        intro hcontra
        refine hnotin ?_
        rw [← hcontra]
        exact List.mem_map.mpr ⟨(t, c), List.mem_cons_self _ _, rfl⟩
      have hc : c < cm := hsmall (t, c) (List.mem_cons_self _ _) ht
      rw [List.foldl_cons, if_neg (by omega)]
      refine ih cur mx (fun e he hne => hsmall e (List.mem_cons_of_mem _ he) hne)
        (Or.inr ⟨fun hmm => hnotin (List.mem_cons_of_mem _ hmm), hcur, hmx⟩)

/-- When one note is strictly most frequent in the pushed history, the
selection fold picks it together with its occurrence count. -/
theorem pickMostFrequent_eq (init : String) (ns : List String) (m : String)
    (hm : m ∈ ns)
    (hstrict : ∀ n ∈ ns, n ≠ m → ns.count n < ns.count m) :
    pickMostFrequent init (noteCounts ns) = (m, ns.count m) := by
  have hkeys : m ∈ (noteCounts ns).map Prod.fst := (mem_keys_noteCounts ns m).mpr hm
  have hmem : (m, ns.count m) ∈ noteCounts ns := by
    have := mem_of_lookupCount (noteCounts ns) m hkeys
    rwa [lookupCount_noteCounts] at this
  have hsmall : ∀ e ∈ noteCounts ns, e.1 ≠ m → e.2 < ns.count m := by
    intro e he hne
    have hval : lookupCount (noteCounts ns) e.1 = e.2 :=
      lookupCount_of_mem_nodup (noteCounts ns) (noteCounts_keys_nodup ns) e he
    rw [lookupCount_noteCounts] at hval
    have hin : e.1 ∈ ns := by
      rw [← mem_keys_noteCounts ns]
      exact List.mem_map_of_mem Prod.fst he
    rw [← hval]
    exact hstrict e.1 hin hne
  have hpos : 0 < ns.count m := List.count_pos_iff.mpr hm
  exact pickMostFrequent_go m (ns.count m) (noteCounts ns) init 0 hsmall
    (Or.inl ⟨hmem, hpos, noteCounts_keys_nodup ns⟩)

/-- **C2, counterexample.**  Three identical `NotePitch` inputs for the
note A with `cents = 30` (a legal cents value, inside `[-50, 50]`) fed to a
freshly reset tracker leave `isStable = false`: the third step reaches
stability counter 2 for the continuing note, but the weighted-average
`|cents| = 30` fails the `< 25` gate, so the claim's unconditional "3
identical inputs yield `isStable = true`" is false. -/
theorem tracker_three_identical_not_stable :
    (trackerStep (trackerStep (trackerStep initTracker
        ⟨"A", 4, 440, 30⟩).1 ⟨"A", 4, 440, 30⟩).1 ⟨"A", 4, 440, 30⟩).2.isStable
      = false := by
  with_unfolding_all decide

/-- **C2, amended.**  First part: on each new `NotePitch`, with `m` the
(strictly) most frequent note of the capped 3-element history — if `m`
equals the previously accepted note the stability counter increments and
`isStable` holds exactly when the incremented counter is ≥ 2 and the
weighted-average `|cents| < 25`; if it differs the counter resets to 0, the
note is stored, and `isStable` holds exactly when `m`'s occurrence count is
≥ 2 and the weighted-average `|cents| < 15`.  Second part: from a reset
tracker, three identical inputs whose `|cents| < 25` yield
`isStable = true`. -/
theorem trackerStep_hysteresis :
    (∀ (st : TrackerState) (p : TrackerPitch) (m : String),
      m ∈ (pushHistory st.noteHistory p).map TrackerPitch.note →
      (∀ n ∈ (pushHistory st.noteHistory p).map TrackerPitch.note, n ≠ m →
        ((pushHistory st.noteHistory p).map TrackerPitch.note).count n <
          ((pushHistory st.noteHistory p).map TrackerPitch.note).count m) →
      ((trackerStep st p).2.currentNote = m ∧
       (trackerStep st p).1.noteHistory = pushHistory st.noteHistory p ∧
       (m = st.previousNote →
          (trackerStep st p).1.stableCount = st.stableCount + 1 ∧
          (trackerStep st p).1.previousNote = st.previousNote ∧
          ((trackerStep st p).2.isStable = true ↔
            2 ≤ st.stableCount + 1 ∧ |trackerAvgCents st p| < 25)) ∧
       (m ≠ st.previousNote →
          (trackerStep st p).1.stableCount = 0 ∧
          (trackerStep st p).1.previousNote = m ∧
          ((trackerStep st p).2.isStable = true ↔
            2 ≤ ((pushHistory st.noteHistory p).map TrackerPitch.note).count m ∧
              |trackerAvgCents st p| < 15)))) ∧
    (∀ p : TrackerPitch, |p.cents| < 25 →
      (trackerStep (trackerStep (trackerStep initTracker p).1 p).1 p).2.isStable
        = true) := by
  have partA : ∀ (st : TrackerState) (p : TrackerPitch) (m : String),
      m ∈ (pushHistory st.noteHistory p).map TrackerPitch.note →
      (∀ n ∈ (pushHistory st.noteHistory p).map TrackerPitch.note, n ≠ m →
        ((pushHistory st.noteHistory p).map TrackerPitch.note).count n <
          ((pushHistory st.noteHistory p).map TrackerPitch.note).count m) →
      ((trackerStep st p).2.currentNote = m ∧
       (trackerStep st p).1.noteHistory = pushHistory st.noteHistory p ∧
       (m = st.previousNote →
          (trackerStep st p).1.stableCount = st.stableCount + 1 ∧
          (trackerStep st p).1.previousNote = st.previousNote ∧
          ((trackerStep st p).2.isStable = true ↔
            2 ≤ st.stableCount + 1 ∧ |trackerAvgCents st p| < 25)) ∧
       (m ≠ st.previousNote →
          (trackerStep st p).1.stableCount = 0 ∧
          (trackerStep st p).1.previousNote = m ∧
          ((trackerStep st p).2.isStable = true ↔
            2 ≤ ((pushHistory st.noteHistory p).map TrackerPitch.note).count m ∧
              |trackerAvgCents st p| < 15))) := by
    intro st p m hm hstrict
    have hpick := pickMostFrequent_eq p.note
      ((pushHistory st.noteHistory p).map TrackerPitch.note) m hm hstrict
    have hmf : mostFrequent st p = m := by
      rw [mostFrequent, noteOccurrences, hpick]
    have hmo : maxOccur st p =
        ((pushHistory st.noteHistory p).map TrackerPitch.note).count m := by
      rw [maxOccur, noteOccurrences, hpick]
    by_cases hprev : m = st.previousNote
    · have hstep : trackerStep st p =
          (⟨pushHistory st.noteHistory p, st.stableCount + 1, st.previousNote⟩,
           ⟨mostFrequent st p, trackerAvgFreq st p, trackerAvgCents st p,
            decide (2 ≤ st.stableCount + 1) &&
              decide (|trackerAvgCents st p| < 25)⟩) := by
        unfold trackerStep
        rw [if_pos (show mostFrequent st p = st.previousNote by rw [hmf]; exact hprev)]
      rw [hstep]
      refine ⟨hmf, rfl, fun _ => ⟨rfl, rfl, ?_⟩, fun hne => absurd hprev hne⟩
      simp [Bool.and_eq_true, decide_eq_true_iff]
    · have hstep : trackerStep st p =
          (⟨pushHistory st.noteHistory p, 0, mostFrequent st p⟩,
           ⟨mostFrequent st p, trackerAvgFreq st p, trackerAvgCents st p,
            decide (2 ≤ maxOccur st p) &&
              decide (|trackerAvgCents st p| < 15)⟩) := by
        unfold trackerStep
        rw [if_neg (show ¬ mostFrequent st p = st.previousNote by rw [hmf]; exact hprev)]
      rw [hstep]
      refine ⟨hmf, rfl, fun heq => absurd heq hprev, fun _ => ⟨rfl, hmf, ?_⟩⟩
      rw [hmo]
      simp [Bool.and_eq_true, decide_eq_true_iff]
  refine ⟨partA, ?_⟩
  intro p hc
  have hstrict3 : ∀ (h : List TrackerPitch), (∀ q ∈ h, q.note = p.note) →
      ∀ n ∈ h.map TrackerPitch.note, n ≠ p.note →
        (h.map TrackerPitch.note).count n < (h.map TrackerPitch.note).count p.note := by
    intro h hall n hn hne
    exfalso
    obtain ⟨q, hq, hqe⟩ := List.mem_map.mp hn
    exact hne (hqe ▸ hall q hq)
  -- step 1
  have hpush1 : pushHistory initTracker.noteHistory p = [p] := rfl
  have hA1 := partA initTracker p p.note
    (by rw [hpush1]; simp)
    (by rw [hpush1]; exact hstrict3 [p] (by simp))
  -- steps 2 and 3, split on whether `p.note` is the initial empty
  -- `previousNote`
  by_cases hpn : p.note = ""
  · have hs1 : (trackerStep initTracker p).1 = ⟨[p], 1, ""⟩ := by
      obtain ⟨hsc, hpv, _⟩ := hA1.2.2.1 (by rw [hpn]; rfl)
      refine TrackerState.ext ?_ ?_ ?_
      · exact hA1.2.1.trans hpush1
      · exact hsc
      · exact hpv
    have hpush2 : pushHistory ([p]) p = [p, p] := rfl
    have hA2 := partA ⟨[p], 1, ""⟩ p p.note
      (by rw [show (⟨[p], 1, ""⟩ : TrackerState).noteHistory = [p] from rfl, hpush2]; simp)
      (by rw [show (⟨[p], 1, ""⟩ : TrackerState).noteHistory = [p] from rfl, hpush2]
          exact hstrict3 [p, p] (by simp))
    have hs2 : (trackerStep (⟨[p], 1, ""⟩ : TrackerState) p).1 = ⟨[p, p], 2, ""⟩ := by
      obtain ⟨hsc, hpv, _⟩ := hA2.2.2.1 (by rw [hpn])
      refine TrackerState.ext ?_ ?_ ?_
      · exact hA2.2.1.trans hpush2
      · exact hsc
      · exact hpv
    have hA3 := partA ⟨[p, p], 2, ""⟩ p p.note
      (by rw [show (⟨[p, p], 2, ""⟩ : TrackerState).noteHistory = [p, p] from rfl,
            show pushHistory [p, p] p = [p, p, p] from rfl]; simp)
      (by rw [show (⟨[p, p], 2, ""⟩ : TrackerState).noteHistory = [p, p] from rfl,
            show pushHistory [p, p] p = [p, p, p] from rfl]
          exact hstrict3 [p, p, p] (by simp))
    have havg : trackerAvgCents (⟨[p, p], 2, ""⟩ : TrackerState) p = p.cents := by
      rw [trackerAvgCents, show pushHistory (⟨[p, p], 2, ""⟩ : TrackerState).noteHistory p
        = [p, p, p] from rfl]
      rw [weightedSum, weightTotal]
      simp [List.enum, List.enumFrom]
      ring
    rw [hs1, hs2]
    rw [(hA3.2.2.1 (by rw [hpn])).2.2, havg]
    exact ⟨show (2:ℕ) ≤ 2 + 1 by norm_num, hc⟩
  · have hs1 : (trackerStep initTracker p).1 = ⟨[p], 0, p.note⟩ := by
      obtain ⟨hsc, hpv, _⟩ := hA1.2.2.2
        (by rw [show initTracker.previousNote = "" from rfl]; exact hpn)
      refine TrackerState.ext ?_ ?_ ?_
      · exact hA1.2.1.trans hpush1
      · exact hsc
      · exact hpv
    have hpush2 : pushHistory ([p]) p = [p, p] := rfl
    have hA2 := partA ⟨[p], 0, p.note⟩ p p.note
      (by rw [show (⟨[p], 0, p.note⟩ : TrackerState).noteHistory = [p] from rfl, hpush2]; simp)
      (by rw [show (⟨[p], 0, p.note⟩ : TrackerState).noteHistory = [p] from rfl, hpush2]
          exact hstrict3 [p, p] (by simp))
    have hs2 : (trackerStep (⟨[p], 0, p.note⟩ : TrackerState) p).1
        = ⟨[p, p], 1, p.note⟩ := by
      obtain ⟨hsc, hpv, _⟩ := hA2.2.2.1 rfl
      refine TrackerState.ext ?_ ?_ ?_
      · exact hA2.2.1.trans hpush2
      · exact hsc
      · exact hpv
    have hA3 := partA ⟨[p, p], 1, p.note⟩ p p.note
      (by rw [show (⟨[p, p], 1, p.note⟩ : TrackerState).noteHistory = [p, p] from rfl,
            show pushHistory [p, p] p = [p, p, p] from rfl]; simp)
      (by rw [show (⟨[p, p], 1, p.note⟩ : TrackerState).noteHistory = [p, p] from rfl,
            show pushHistory [p, p] p = [p, p, p] from rfl]
          exact hstrict3 [p, p, p] (by simp))
    have havg : trackerAvgCents (⟨[p, p], 1, p.note⟩ : TrackerState) p = p.cents := by
      rw [trackerAvgCents, show pushHistory (⟨[p, p], 1, p.note⟩ : TrackerState).noteHistory p
        = [p, p, p] from rfl]
      rw [weightedSum, weightTotal]
      simp [List.enum, List.enumFrom]
      ring
    rw [hs1, hs2]
    rw [(hA3.2.2.1 rfl).2.2, havg]
    exact ⟨show (2:ℕ) ≤ 1 + 1 by norm_num, hc⟩

/-- Witness for the amended C2: three A-440 inputs at 0 cents from the
reset tracker produce a stable reading. -/
theorem trackerStep_hysteresis_witness :
    (trackerStep (trackerStep (trackerStep initTracker
        ⟨"A", 4, 440, 0⟩).1 ⟨"A", 4, 440, 0⟩).1 ⟨"A", 4, 440, 0⟩).2.isStable
      = true :=
  trackerStep_hysteresis.2 ⟨"A", 4, 440, 0⟩ (by norm_num)

/-! ## ML output scoring (`predictFromPCM`, post-inference portion)

The model's 12-element score vector is reduced to the best/second-best
scan, the combined confidence, the per-note floor, and the returned pair.
`none` in the scan state models the JavaScript `-Infinity` initialisers
(any finite score beats them); those states survive only for vectors
shorter than 2 and are unreachable for the 12-class output. -/

/-- Chromatic class order of the ML output vector (`CHROMA`). -/
def CHROMA : List String :=
  ["C", "C#", "D", "D#", "E", "F"] ++ ["F#", "G", "G#", "A", "A#", "B"]

/-- JavaScript `a > b` where `b` may be `-Infinity` (`none`). -/
def gtInf (a : ℚ) : Option ℚ → Bool
  | none => true
  | some v => decide (v < a)

/-- The best/second-best scan of `predictFromPCM`: `best` and
`secondBest` start at `-Infinity`, `idx` at 0; a new maximum pushes the
previous one down to `secondBest`. -/
def top2Scan (out : List ℚ) : Option ℚ × Option ℚ × ℕ :=
  out.enum.foldl (fun st e =>
    if gtInf e.2 st.1 then (some e.2, st.1, e.1)
    else if gtInf e.2 st.2.1 then (st.1, some e.2, st.2.2)
    else st) (none, none, 0)

/-- `thresholdByNote`: stricter confidence floor for `C#`. -/
def thresholdByNote (note : String) : ℚ :=
  if note = "C#" then 3/10 else 15/100

/-- The scoring tail of `predictFromPCM`: combined confidence
`0.7·top1 + 0.3·(top1 − top2)`, suppression below the per-note floor
(`['', 0]`), otherwise the top-1 note with its raw score. -/
def scoreOutput (out : List ℚ) : String × ℚ :=
  match top2Scan out with
  | (some best, some secondBest, idx) =>
    if best * (7/10) + (best - secondBest) * (3/10) <
        thresholdByNote (CHROMA.getD idx "") then ("", 0)
    else (CHROMA.getD idx "", best)
  | (_, _, _) => ("", 0)

/-- Maximum of a rational list, `none` on the empty list (spec-side). -/
def specMax (l : List ℚ) : Option ℚ :=
  l.foldl (fun m a =>
    match m with
    | none => some a
    | some b => some (max b a)) none

theorem specMax_concat (l : List ℚ) (x : ℚ) :
    specMax (l ++ [x]) =
      match specMax l with
      | none => some x
      | some b => some (max b x) := by
  rw [specMax, List.foldl_append, List.foldl_cons, List.foldl_nil]
  rfl

theorem specMax_mem (l : List ℚ) : ∀ b : ℚ, specMax l = some b → b ∈ l := by
  induction l using List.reverseRecOn with
  | nil =>
    intro b h
    simp [specMax] at h
  | append_singleton l' x ih =>
    intro b h
    rw [specMax_concat] at h
    cases hsm : specMax l' with
    | none =>
      rw [hsm] at h
      have hxb : x = b := by simpa using h
      subst hxb
      exact List.mem_append.mpr (Or.inr (List.mem_singleton_self _))
    | some c =>
      rw [hsm] at h
      have hmb : max c x = b := by simpa using h
      rcases le_total c x with hcx | hxc
      · rw [max_eq_right hcx] at hmb
        subst hmb
        exact List.mem_append.mpr (Or.inr (List.mem_singleton_self _))
      · rw [max_eq_left hxc] at hmb
        subst hmb
        exact List.mem_append.mpr (Or.inl (ih _ hsm))

theorem specMax_eq_some (l : List ℚ) (v : ℚ) (hmem : v ∈ l)
    (hmax : ∀ a ∈ l, a ≤ v) : specMax l = some v := by
  induction l using List.reverseRecOn with
  | nil => simp at hmem
  | append_singleton l' x ih =>
    rw [specMax_concat]
    rcases List.mem_append.mp hmem with hv | hv
    · have hx : x ≤ v := hmax x (List.mem_append.mpr (Or.inr (List.mem_singleton_self x)))
      rw [ih hv (fun a ha => hmax a (List.mem_append.mpr (Or.inl ha)))]
      simp [max_eq_left hx]
    · rw [List.mem_singleton] at hv
      cases hsm : specMax l' with
      | none => simp [hv]
      | some b =>
        have hb : b ≤ v := hmax b (List.mem_append.mpr (Or.inl (specMax_mem l' b hsm)))
        have hb' : b ≤ x := hv ▸ hb
        simp [hv, max_eq_right hb']

theorem gtInf_some (a v : ℚ) : gtInf a (some v) = decide (v < a) := rfl

theorem gtInf_none (a : ℚ) : gtInf a none = true := rfl

theorem top2Scan_concat (l : List ℚ) (x : ℚ) :
    top2Scan (l ++ [x]) =
      (if gtInf x (top2Scan l).1 then (some x, (top2Scan l).1, l.length)
       else if gtInf x (top2Scan l).2.1 then
         ((top2Scan l).1, some x, (top2Scan l).2.2)
       else top2Scan l) := by
  simp only [top2Scan, List.enum_append, List.foldl_append,
    List.enumFrom_singleton, List.foldl_cons, List.foldl_nil]

/-- Invariant of the best/second-best scan on a nonempty vector: the scan
returns the maximum, the index of its first occurrence, and the maximum of
the vector with that entry removed. -/
theorem top2Scan_spec (l : List ℚ) (hne : l ≠ []) :
    ∃ b s i, top2Scan l = (some b, s, i) ∧ i < l.length ∧ l.getD i 0 = b ∧
      (∀ j, j < l.length → l.getD j 0 ≤ b) ∧
      s = specMax (l.eraseIdx i) := by
  induction l using List.reverseRecOn with
  | nil => exact absurd rfl hne
  | append_singleton l' x ih =>
    rcases eq_or_ne l' [] with hnil | hne'
    · subst hnil
      refine ⟨x, none, 0, rfl, by simp, rfl, ?_, rfl⟩
      intro j hj
      simp only [List.nil_append, List.length_singleton] at hj
      have hj0 : j = 0 := by omega
      subst hj0
      exact le_of_eq rfl
    · obtain ⟨b, s, i, hts, hlt, hget, hmax, hsm⟩ := ih hne'
      rcases lt_or_le b x with hbx | hxb
      · -- x is a new strict maximum: it takes over, b drops to second place
        have hgt : gtInf x (some b) = true := decide_eq_true hbx
        refine ⟨x, some b, l'.length, ?_, ?_, ?_, ?_, ?_⟩
        · rw [top2Scan_concat, hts]
          dsimp only
          rw [if_pos hgt]
        · simp
        · rw [List.getD_append_right l' [x] 0 l'.length (le_refl _)]
          simp
        · intro j hj
          simp only [List.length_append, List.length_singleton] at hj
          rcases lt_or_ge j l'.length with hjl | hjr
          · rw [List.getD_append l' [x] 0 j hjl]
            exact le_of_lt (lt_of_le_of_lt (hmax j hjl) hbx)
          · have hje : j = l'.length := by omega
            subst hje
            rw [List.getD_append_right l' [x] 0 _ (le_refl _)]
            simp
        · have her : (l' ++ [x]).eraseIdx l'.length = l' := by
            rw [List.eraseIdx_append_of_length_le (le_refl _) [x]]
            simp
          rw [her]
          have hbmem : b ∈ l' := by
            rw [← hget, List.getD_eq_getElem l' 0 hlt]
            exact List.getElem_mem hlt
          have hble : ∀ a ∈ l', a ≤ b := by
            intro a ha
            obtain ⟨j, hj, hja⟩ := List.getElem_of_mem ha
            have hjb := hmax j hj
            rw [List.getD_eq_getElem l' 0 hj, hja] at hjb
            exact hjb
          exact (specMax_eq_some l' b hbmem hble).symm
      · -- x does not beat the maximum: b and its index survive
        have hgtf : gtInf x (some b) = false := decide_eq_false (not_lt.mpr hxb)
        have hilt : i < (l' ++ [x]).length := by
          simp only [List.length_append, List.length_singleton]
          omega
        have hgete : (l' ++ [x]).getD i 0 = b := by
          rw [List.getD_append l' [x] 0 i hlt]
          exact hget
        have hmaxe : ∀ j, j < (l' ++ [x]).length → (l' ++ [x]).getD j 0 ≤ b := by
          intro j hj
          simp only [List.length_append, List.length_singleton] at hj
          rcases lt_or_ge j l'.length with hjl | hjr
          · rw [List.getD_append l' [x] 0 j hjl]
            exact hmax j hjl
          · have hje : j = l'.length := by omega
            subst hje
            rw [List.getD_append_right l' [x] 0 _ (le_refl _)]
            simpa using hxb
        cases s with
        | none =>
          -- second place was still -Infinity: x fills it
          refine ⟨b, some x, i, ?_, hilt, hgete, hmaxe, ?_⟩
          · rw [top2Scan_concat, hts]
            dsimp only
            rw [hgtf, if_neg Bool.false_ne_true, if_pos (gtInf_none x)]
          · rw [List.eraseIdx_append_of_lt_length hlt [x], specMax_concat, ← hsm]
        | some s0 =>
          rcases lt_or_le s0 x with hs0x | hxs0
          · -- x beats the old second best
            have hgt2 : gtInf x (some s0) = true := decide_eq_true hs0x
            refine ⟨b, some x, i, ?_, hilt, hgete, hmaxe, ?_⟩
            · rw [top2Scan_concat, hts]
              dsimp only
              rw [hgtf, if_neg Bool.false_ne_true, if_pos hgt2]
            · rw [List.eraseIdx_append_of_lt_length hlt [x], specMax_concat, ← hsm]
              dsimp only
              rw [max_eq_right (le_of_lt hs0x)]
          · -- x changes nothing
            have hgt2f : gtInf x (some s0) = false := decide_eq_false (not_lt.mpr hxs0)
            refine ⟨b, some s0, i, ?_, hilt, hgete, hmaxe, ?_⟩
            · rw [top2Scan_concat, hts]
              dsimp only
              rw [hgtf, if_neg Bool.false_ne_true, hgt2f, if_neg Bool.false_ne_true]
            · rw [List.eraseIdx_append_of_lt_length hlt [x], specMax_concat, ← hsm]
              dsimp only
              rw [max_eq_left hxs0]

theorem getD_mem_eraseIdx (l : List ℚ) (i j : ℕ) (hj : j < l.length)
    (hne : j ≠ i) : l.getD j 0 ∈ l.eraseIdx i := by
  rw [List.getD_eq_getElem l 0 hj]
  rcases lt_or_ge j i with hji | hij
  · refine List.mem_iff_getElem?.mpr ⟨j, ?_⟩
    rw [List.getElem?_eraseIdx_of_lt l i j hji, List.getElem?_eq_getElem hj]
  · have hij' : i < j := lt_of_le_of_ne hij (Ne.symm hne)
    refine List.mem_iff_getElem?.mpr ⟨j - 1, ?_⟩
    rw [List.getElem?_eraseIdx_of_ge l i (j - 1) (by omega)]
    have hj1 : j - 1 + 1 = j := by omega
    rw [hj1, List.getElem?_eq_getElem hj]

theorem mem_eraseIdx_getD (l : List ℚ) (i : ℕ) (hi : i < l.length) :
    ∀ a ∈ l.eraseIdx i, ∃ j, j < l.length ∧ j ≠ i ∧ l.getD j 0 = a := by
  intro a ha
  obtain ⟨k, hk, hka⟩ := List.getElem_of_mem ha
  have hlen : (l.eraseIdx i).length = l.length - 1 := List.length_eraseIdx_of_lt hi
  rcases lt_or_ge k i with hki | hik
  · have hkl : k < l.length := by omega
    refine ⟨k, hkl, by omega, ?_⟩
    rw [List.getD_eq_getElem l 0 hkl, ← hka,
      List.getElem_eraseIdx_of_lt l i k hk hki]
  · have hkl : k + 1 < l.length := by omega
    refine ⟨k + 1, hkl, by omega, ?_⟩
    rw [List.getD_eq_getElem l 0 hkl, ← hka,
      List.getElem_eraseIdx_of_ge l i k hk hik]

/-- C6: on a 12-class output vector whose maximum is attained strictly at
index `i` and whose second-largest value is `t2`, the ML scoring step
computes the combined confidence `0.7·top1 + 0.3·(top1 − top2)`, suppresses
the result to `("", 0)` exactly when that confidence is below the per-note
floor — `0.3` for the `C#` class, `0.15` for every other class — and
otherwise returns the top-1 note with its raw score. -/
theorem predictFromPCM_confidence_floor (out : List ℚ) (t2 : ℚ) (i : ℕ)
    (hlen : out.length = 12) (hi : i < 12)
    (hstrict : ∀ j, j < 12 → j ≠ i → out.getD j 0 < out.getD i 0)
    (ht2mem : ∃ j, j < 12 ∧ j ≠ i ∧ out.getD j 0 = t2)
    (ht2max : ∀ j, j < 12 → j ≠ i → out.getD j 0 ≤ t2) :
    scoreOutput out =
      if out.getD i 0 * (7/10) + (out.getD i 0 - t2) * (3/10) <
          thresholdByNote (CHROMA.getD i "") then ("", 0)
      else (CHROMA.getD i "", out.getD i 0) := by
  have hne : out ≠ [] := by
    intro h
    rw [h] at hlen
    simp at hlen
  obtain ⟨b, s, i', hts, hlt, hget, hmax, hsm⟩ := top2Scan_spec out hne
  have hil : i < out.length := by omega
  have hii : i' = i := by
    by_contra hne2
    have hlt12 : i' < 12 := by omega
    have h1 := hstrict i' hlt12 hne2
    have h2 := hmax i hil
    rw [hget] at h1
    exact absurd h2 (not_le.mpr h1)
  subst i'
  have hs : s = some t2 := by
    rw [hsm]
    refine specMax_eq_some (out.eraseIdx i) t2 ?_ ?_
    · obtain ⟨j, hj, hjne, hjv⟩ := ht2mem
      have hm := getD_mem_eraseIdx out i j (by omega) hjne
      rwa [hjv] at hm
    · intro a ha
      obtain ⟨j, hj, hjne, hjv⟩ := mem_eraseIdx_getD out i hil a ha
      rw [← hjv]
      exact ht2max j (by omega) hjne
  subst hs
  simp only [scoreOutput, hts]
  rw [hget]

theorem predictFromPCM_confidence_floor_witness :
    scoreOutput [1/20, 17/20, 1/50, 0, 0, 0, 0, 0, 0, 0, 0, 0] = ("C#", 17/20) := by
  have h := predictFromPCM_confidence_floor
    [1/20, 17/20, 1/50, 0, 0, 0, 0, 0, 0, 0, 0, 0] (1/20) 1
    rfl (by norm_num)
    (by with_unfolding_all decide)
    (by with_unfolding_all decide)
    (by with_unfolding_all decide)
  rw [h]
  with_unfolding_all decide

/-! ## The log-mel extractor (`makeLogMel`, optimized variant)

Embedding of `createMelFilterBank` and `makeLogMel`.  Float arithmetic is
idealised over `ℝ` (`Math.log10`/`Math.cos`/`10 **` become `Real.logb`,
`Real.cos`, `rpow`).  The FFT power spectrum comes from the external Meyda
library, so it is a parameter `powerSpectrum : List ℝ → List ℝ` of the
model.  The preallocated `melOutput` buffer of size 64·128 is returned as
`melOutput.subarray(0, nMels * nFrames)`; the frame loop writes each cell
`i * nMels + m` (i < 128, m < 64) exactly once, so the result is modelled
functionally as the list of those cells in index order.  A read
`filter[idx]` past the end of the 1024-entry filter gives `undefined`
(hence NaN sums) in JavaScript; the model returns the spectrum-tail
contribution as 0 there, which is irrelevant to the shape claim. -/

/-- `hzToMel` from `createMelFilterBank`. -/
noncomputable def hzToMel (hz : ℝ) : ℝ := 2595 * Real.logb 10 (1 + hz / 700)

/-- `melToHz` from `createMelFilterBank`. -/
noncomputable def melToHz (mel : ℝ) : ℝ := 700 * ((10 : ℝ) ^ (mel / 2595) - 1)

/-- The 66 mel points for `melBands = 64`, `fmin = 80`, `fmax = 8000`. -/
noncomputable def melPoints : List ℝ :=
  (List.range 66).map (fun i =>
    melToHz (hzToMel 80 + ((i : ℝ) / 65) * (hzToMel 8000 - hzToMel 80)))

/-- FFT bin indices of the mel points; `hzPerBin = 16000 / 2048 = 125/16`. -/
noncomputable def binPoints : List ℤ :=
  melPoints.map (fun mel => ⌊mel / (125 / 16 : ℝ)⌋)

/-- Entry `j` of triangular filter `i`.  The `Float32Array` starts zeroed;
the first loop writes the rising slope on `[binPoints i, binPoints (i+1))`,
the second the falling slope on `[binPoints (i+1), binPoints (i+2))`; the
second loop runs last, so its condition is tested first here. -/
noncomputable def filterTap (i j : ℕ) : ℝ :=
  let b0 := binPoints.getD i 0
  let b1 := binPoints.getD (i + 1) 0
  let b2 := binPoints.getD (i + 2) 0
  if b1 ≤ (j : ℤ) ∧ (j : ℤ) < b2 then ((b2 - (j : ℤ) : ℤ) : ℝ) / ((b2 - b1 : ℤ) : ℝ)
  else if b0 ≤ (j : ℤ) ∧ (j : ℤ) < b1 then (((j : ℤ) - b0 : ℤ) : ℝ) / ((b1 - b0 : ℤ) : ℝ)
  else 0

/-- `powerSpectrum.reduce((sum, val, idx) => sum + val * filter[idx], 0)`
for filter `i`; reads past the 1024-entry filter contribute 0 (NaN in JS,
see the section comment). -/
noncomputable def melFilterApply (ps : List ℝ) (i : ℕ) : ℝ :=
  ps.enum.foldl (fun sum e =>
    sum + e.2 * (if e.1 < 1024 then filterTap i e.1 else 0)) 0

/-- The cached mel filterbank function: one energy per each of the 64
filters. -/
noncomputable def melFilterBankFn (ps : List ℝ) : List ℝ :=
  (List.range 64).map (melFilterApply ps)

/-- `BUFFERS.hannWindow[j] = 0.5 * (1 - cos(2π j / 2047))`. -/
noncomputable def hannWindow (j : ℕ) : ℝ :=
  1 / 2 * (1 - Real.cos (2 * Real.pi * (j : ℝ) / 2047))

/-- The hop size: non-overlapping when the input covers 128 full windows,
otherwise clamped below by 1 (`Math.floor` of a negative quotient is
floor division, `Int` `/` here). -/
def melHop (len : ℕ) : ℤ :=
  if (2048 * 128 : ℤ) ≤ (len : ℤ) then ((len : ℤ) - 2048) / 127
  else max 1 (((len : ℤ) - 2048) / 127)

/-- Frame start `Math.min(i * hopSize, Math.max(0, wavLength - bufferSize))`. -/
def melStart (len : ℕ) (i : ℕ) : ℤ :=
  min ((i : ℤ) * melHop len) (max 0 ((len : ℤ) - 2048))

/-- Frame `i`: 2048 samples from `start`, Hann-windowed, zero-padded past
the end of the input. -/
noncomputable def melFrame (wav : List ℝ) (i : ℕ) : List ℝ :=
  (List.range 2048).map (fun (j : ℕ) =>
    let srcIdx := melStart wav.length i + (j : ℤ)
    if srcIdx < (wav.length : ℤ) then wav.getD srcIdx.toNat 0 * hannWindow j
    else 0)

/-- One output cell: `Math.max(-100, 10 * log10(melEnergies[m] + 1e-10))`. -/
noncomputable def logMelCell (powerSpectrum : List ℝ → List ℝ)
    (wav : List ℝ) (i m : ℕ) : ℝ :=
  max (-100)
    (10 * Real.logb 10
      ((melFilterBankFn (powerSpectrum (melFrame wav i))).getD m 0 + 1 / 10 ^ 10))

/-- `makeLogMel`: the 64·128 cells in buffer order `i * nMels + m`. -/
noncomputable def makeLogMel (powerSpectrum : List ℝ → List ℝ)
    (wav : List ℝ) : List ℝ :=
  (List.range 128).flatMap (fun i =>
    (List.range 64).map (logMelCell powerSpectrum wav i))

set_option maxRecDepth 4096 in
/-- C4: the log-mel extractor's output always has exactly 64 × 128 = 8192
entries, for every input sample array (whether it over-fills or under-fills
the 128 hops of a 2048-sample window) and every power-spectrum extractor. -/
theorem makeLogMel_shape (powerSpectrum : List ℝ → List ℝ) (wav : List ℝ) :
    (makeLogMel powerSpectrum wav).length = 64 * 128 := by
  simp only [makeLogMel, List.flatMap, List.length_flatten, List.map_map,
    Function.comp_def, List.length_map, List.length_range]
  decide

/-! ## The detectPitch pipeline (`detectPitch`, `estimateFrequency`,
`convertToFloat32`, `applyWindow`, `ensurePowerOfTwoBuffer`,
`autoCorrelate`)

The module-level mutable buffers (`floatBuffer`, `powerOfTwoBuffer`,
`hannWindow`) are a record `AudioBufs` threaded through every function
explicitly; the caller's PCM data joins them in `AudioHeap`.  The
`Float32Array` views returned by `subarray` are `BufRef` values (a buffer
name plus a view length); a write through a view updates the prefix of the
named buffer.  `estimateFrequency` is in the scope of the buffers only —
not of `pcmData` — and the same holds here by the types.  Buffer samples
are exact rationals (`pcm[i]/32768` is dyadic, and the stored Hann window
coefficients are float, hence rational, values; they are left abstract).
The only throwing site inside `estimateFrequency`'s `try` is the
`Meyda.extract` feature call, a parameter `Oracle` returning
`Except Unit Features`; its `catch` returns `null`.  The outer `try` of
`detectPitch` has no further throwing site in this model.  The one real
`ℝ` step, `rms = Math.sqrt(...)` in `autoCorrelate`, is compared via
`Real.sqrt`. -/

/-- The module-level reusable buffers of the audio processor. -/
structure AudioBufs where
  floatBuf : List ℚ
  p2Buf : List ℚ
  hann : List ℚ

/-- The heap seen by `detectPitch`: the caller's PCM plus the buffers. -/
structure AudioHeap where
  pcm : List ℤ
  bufs : AudioBufs

/-- A `Float32Array` view: which buffer, and the view length. -/
inductive BufRef where
  | float (n : ℕ)
  | p2 (n : ℕ)

/-- Read a view's contents. -/
def deref (b : AudioBufs) : BufRef → List ℚ
  | .float n => b.floatBuf.take n
  | .p2 n => b.p2Buf.take n

/-- The Meyda spectral features unpacked by `estimateFrequency`. -/
structure Features where
  rms : ℚ
  energy : ℚ
  spectralCentroid : ℚ
  spectralFlatness : ℚ

/-- `Meyda.extract(['rms','energy','spectralCentroid','spectralFlatness'],
processBuffer)`: external code that may throw. -/
def Oracle : Type := List ℚ → Except Unit Features

/-- `convertToFloat32`: copy `min(pcmData.length, floatBuffer.length)`
samples scaled by `1/32768` into `floatBuffer`, return
`floatBuffer.subarray(0, length)`. -/
def convertToFloat32 (pcm : List ℤ) (b : AudioBufs) : AudioBufs × BufRef :=
  (⟨((pcm.take (min pcm.length b.floatBuf.length)).map (fun v => (v : ℚ) / 32768))
      ++ b.floatBuf.drop (min pcm.length b.floatBuf.length), b.p2Buf, b.hann⟩,
   .float (min pcm.length b.floatBuf.length))

/-- `applyWindow`: multiply the first `min(buffer.length, hannWindow.length)`
entries of the view by the Hann window, in place (`zipWith` truncates to
exactly that prefix). -/
def applyWindowS (b : AudioBufs) (r : BufRef) : AudioBufs :=
  let v := deref b r
  let w := List.zipWith (fun x c => x * c) v b.hann
      ++ v.drop (min v.length b.hann.length)
  match r with
  | .float _ => ⟨w ++ b.floatBuf.drop v.length, b.p2Buf, b.hann⟩
  | .p2 _ => ⟨b.floatBuf, w ++ b.p2Buf.drop v.length, b.hann⟩

/-- `isPowerOfTwo`: `n && (n & (n - 1)) === 0` (0 is falsy, so not a power
of two). -/
def isPowerOfTwo (n : ℕ) : Bool := n != 0 && (n &&& (n - 1)) == 0

/-- `nextPowerOfTwo`: `2 ** ceil(log2 n)`; `log2 0 = -Infinity` makes the
result 0 for `n = 0`, and `Nat.clog 2` is the ceiling logarithm otherwise. -/
def nextPowerOfTwo (n : ℕ) : ℕ := if n = 0 then 0 else 2 ^ Nat.clog 2 n

/-- `ensurePowerOfTwoBuffer`: a power-of-two view is passed through;
otherwise the view is copied into `powerOfTwoBuffer`, zero-padded up to
`targetSize`, and the FULL `powerOfTwoBuffer` is returned (its tail beyond
`targetSize` keeps stale data; writes past its end are dropped, as for a
JS typed array). -/
def ensurePowerOfTwoBuffer (b : AudioBufs) (r : BufRef) : AudioBufs × BufRef :=
  let buf := deref b r
  if isPowerOfTwo buf.length then (b, r)
  else
    let targetSize := min (nextPowerOfTwo buf.length) 2048
    let copyLength := min buf.length targetSize
    let written := buf.take copyLength ++ List.replicate (targetSize - copyLength) 0
    (⟨b.floatBuf, (written ++ b.p2Buf.drop targetSize).take b.p2Buf.length, b.hann⟩,
     .p2 b.p2Buf.length)

/-- `autoCorrelate`'s value on the (already windowed) buffer contents:
RMS gate at `sqrt(Σx²/len) < 0.005`, correlation per lag below half the
length, first peak above 30% of the maximum over the search band
`(⌊sr/1500⌋, min(len/2 - 1, ⌈sr/80⌉) - 1)`, rejected unless the parabolic
coefficient `a` is negative, then `sr / (peak - b/(2a))`.  The source
builds `Float32Array(buffer.length / 2)`; callers pass power-of-two (hence
even) lengths, and `len / 2` is the Nat division. -/
noncomputable def autoCorrelateVal (buffer : List ℚ) (sampleRate : ℚ) : Option ℚ :=
  if Real.sqrt ((((buffer.map (fun x => x * x)).sum / (buffer.length : ℚ) : ℚ) : ℝ)) <
      5 / 1000 then none
  else
    let correlations := (List.range (buffer.length / 2)).map (fun lag =>
      ((List.range (buffer.length - lag)).foldl
        (fun s i => s + buffer.getD i 0 * buffer.getD (i + lag) 0) 0)
        / ((buffer.length - lag : ℕ) : ℚ))
    let startIndex : ℤ := ⌊sampleRate / 1500⌋
    let endIndex : ℤ := min ((correlations.length : ℤ) - 1) ⌈sampleRate / 80⌉
    let idxs : List ℕ := (List.range (endIndex - 1 - (startIndex + 1)).toNat).map
      (fun k => (startIndex + 1).toNat + k)
    let maxCorrelation := idxs.foldl (fun m i => max m (correlations.getD i 0)) 0
    let threshold := maxCorrelation * (3 / 10)
    match idxs.find? (fun i =>
      decide (threshold < correlations.getD i 0) &&
      decide (correlations.getD (i - 1) 0 < correlations.getD i 0) &&
      decide (correlations.getD (i + 1) 0 ≤ correlations.getD i 0)) with
    | none => none
    | some peakIndex =>
      let y1 := correlations.getD (peakIndex - 1) 0
      let y2 := correlations.getD peakIndex 0
      let y3 := correlations.getD (peakIndex + 1) 0
      let a := (y1 + y3 - 2 * y2) / 2
      let b := (y3 - y1) / 2
      if 0 ≤ a then none
      else some (sampleRate / ((peakIndex : ℚ) - b / (2 * a)))

/-- `autoCorrelate`: windows the view in place, then computes on it. -/
noncomputable def autoCorrelateS (b : AudioBufs) (r : BufRef) (sampleRate : ℚ) :
    AudioBufs × Option ℚ :=
  let b2 := applyWindowS b r
  (b2, autoCorrelateVal (deref b2 r) sampleRate)

/-- JavaScript falsiness of `number | null` (`null` and `0`). -/
def jsFalsy : Option ℚ → Bool
  | none => true
  | some v => decide (v = 0)

/-- `!frequency || frequency < 80 || frequency > 1500` on the YIN result. -/
def freqRejected : Option ℚ → Bool
  | none => true
  | some v => decide (v = 0) || decide (v < 80) || decide (1500 < v)

/-- `estimateFrequency`: power-of-two coercion, feature extraction (the
`catch` returns `null`), the quiet gate `energy < 0.0005 || rms < 0.005`,
the noise gate `spectralFlatness > 0.5`, then YIN, autocorrelation when YIN
is falsy or out of `[80, 1500]`, and the spectral-centroid fallback when
both are falsy and the centroid is in range with flatness below 0.3. -/
noncomputable def estimateFrequencyS (o : Oracle) (b : AudioBufs) (r : BufRef)
    (sampleRate : ℚ) : AudioBufs × Option ℚ :=
  let (b1, r1) := ensurePowerOfTwoBuffer b r
  match o (deref b1 r1) with
  | .error _ => (b1, none)
  | .ok f =>
    if f.energy < 1 / 2000 ∨ f.rms < 1 / 200 then (b1, none)
    else if 1 / 2 < f.spectralFlatness then (b1, none)
    else
      let fy := yinPitchDetection (deref b1 r1) sampleRate
      if freqRejected fy then
        let (b2, ac) := autoCorrelateS b1 r1 sampleRate
        if jsFalsy ac = true ∧ 80 < f.spectralCentroid ∧ f.spectralCentroid < 1500
            ∧ f.spectralFlatness < 3 / 10 then (b2, some f.spectralCentroid)
        else (b2, ac)
      else (b1, fy)

/-- `detectPitch`: inputs shorter than 1024 samples return `null`; the PCM
is converted into `floatBuffer`, the frequency estimated at
`SETTINGS.sampleRate = 16000`, a falsy frequency (`null` or 0) returns
`null`, and otherwise the note mapper runs.  The buffer pipeline is exact
rational; the mapper's transcendental step takes the frequency as a real. -/
noncomputable def detectPitchS (o : Oracle) (h : AudioHeap) :
    AudioHeap × Option NotePitch :=
  if h.pcm.length < 1024 then (h, none)
  else
    let (b1, r1) := convertToFloat32 h.pcm h.bufs
    let (b2, fq) := estimateFrequencyS o b1 r1 16000
    match fq with
    | none => (⟨h.pcm, b2⟩, none)
    | some v =>
      if v = 0 then (⟨h.pcm, b2⟩, none)
      else (⟨h.pcm, b2⟩, findClosestNote (v : ℝ))

/-- The analysis view handed to the feature extractor, as read by
`estimateFrequency` after `convertToFloat32` and `ensurePowerOfTwoBuffer`. -/
def analysisView (h : AudioHeap) : AudioBufs × BufRef :=
  ensurePowerOfTwoBuffer (convertToFloat32 h.pcm h.bufs).1
    (convertToFloat32 h.pcm h.bufs).2

/-- The contents of the analysis view. -/
def analysisBuffer (h : AudioHeap) : List ℚ :=
  deref (analysisView h).1 (analysisView h).2

theorem getD_replicate_zero (n i : ℕ) : (List.replicate n (0 : ℚ)).getD i 0 = 0 := by
  rw [List.getD_eq_getElem?_getD, List.getElem?_replicate]
  split <;> rfl

theorem yinDiff_zeros (n half τ : ℕ) : yinDiff (List.replicate n 0) half τ = 0 := by
  apply List.sum_eq_zero
  intro x hx
  obtain ⟨i, _, hix⟩ := List.mem_map.mp hx
  rw [← hix, getD_replicate_zero, getD_replicate_zero]
  ring

theorem yinRunningSum_zeros (n half τ : ℕ) :
    yinRunningSum (List.replicate n 0) half τ = 0 := by
  apply List.sum_eq_zero
  intro x hx
  obtain ⟨i, _, hix⟩ := List.mem_map.mp hx
  rw [← hix, yinDiff_zeros]

theorem yinVal_zeros (n half τ : ℕ) (hτ : 1 ≤ τ) :
    yinVal (List.replicate n 0) half τ = none := by
  unfold yinVal
  rw [if_neg (by omega)]
  by_cases h : τ < half
  · rw [if_pos h, if_pos (yinRunningSum_zeros n half τ)]
  · rw [if_neg h]

theorem yinScanAux_zeros (n half : ℕ) :
    ∀ fuel τ minVal minTau, 1 ≤ τ →
      yinScanAux (List.replicate n 0) half fuel τ minVal minTau =
        .inr (minVal, minTau) := by
  intro fuel
  induction fuel with
  | zero => intro τ mv mt _; rfl
  | succ fuel ih =>
    intro τ mv mt hτ
    unfold yinScanAux
    by_cases h : τ < half
    · rw [if_pos h, yinVal_zeros n half τ hτ]
      dsimp only [ltNaN]
      rw [if_neg Bool.false_ne_true, if_neg Bool.false_ne_true]
      exact ih (τ + 1) mv mt (by omega)
    · rw [if_neg h]

theorem estimateFrequencyS_error (o : Oracle) (b : AudioBufs) (r : BufRef)
    (sr : ℚ)
    (he : o (deref (ensurePowerOfTwoBuffer b r).1 (ensurePowerOfTwoBuffer b r).2) =
      .error ()) :
    (estimateFrequencyS o b r sr).2 = none := by
  rcases hE : ensurePowerOfTwoBuffer b r with ⟨b1, r1⟩
  rw [hE] at he
  dsimp only at he
  unfold estimateFrequencyS
  rw [hE]
  dsimp only
  rw [he]

/-- C5: before any pitch algorithm runs, `estimateFrequency` returns no
pitch for every frame whose extracted energy is below 0.0005, or RMS below
0.005, or spectral flatness above 0.5; and an all-zero frame yields no
pitch from each pitch algorithm — the YIN estimator and the
autocorrelation detector both return `null` on it (for the YIN estimator
the zero running sum makes every normalized value NaN, so neither the
threshold branch nor the minimum branch fires). -/
theorem estimateFrequency_gating :
    (∀ (o : Oracle) (b : AudioBufs) (r : BufRef) (sr : ℚ) (f : Features),
        o (deref (ensurePowerOfTwoBuffer b r).1 (ensurePowerOfTwoBuffer b r).2) =
          .ok f →
        (f.energy < 1 / 2000 ∨ f.rms < 1 / 200 ∨ 1 / 2 < f.spectralFlatness) →
        (estimateFrequencyS o b r sr).2 = none)
    ∧ (∀ (n : ℕ) (sr : ℚ), yinPitchDetection (List.replicate n 0) sr = none)
    ∧ (∀ (n : ℕ) (sr : ℚ), autoCorrelateVal (List.replicate n 0) sr = none) := by
  refine ⟨?_, ?_, ?_⟩
  · intro o b r sr f ho hg
    rcases hE : ensurePowerOfTwoBuffer b r with ⟨b1, r1⟩
    rw [hE] at ho
    dsimp only at ho
    unfold estimateFrequencyS
    rw [hE]
    dsimp only
    rw [ho]
    dsimp only
    rcases hg with h1 | h2 | h3
    · rw [if_pos (Or.inl h1)]
    · rw [if_pos (Or.inr h2)]
    · by_cases h12 : f.energy < 1 / 2000 ∨ f.rms < 1 / 200
      · rw [if_pos h12]
      · rw [if_neg h12, if_pos h3]
  · intro n sr
    unfold yinPitchDetection
    rw [yinScanAux_zeros n _ _ 2 1 0 (by omega)]
    dsimp only
    rw [if_neg (fun h => absurd h.1 (lt_irrefl 0))]
  · intro n sr
    have h0 : Real.sqrt (((((List.replicate n (0:ℚ)).map (fun x => x * x)).sum /
        ((List.replicate n (0:ℚ)).length : ℚ) : ℚ) : ℝ)) < 5 / 1000 := by
      have hs : ((List.replicate n (0:ℚ)).map (fun x => x * x)).sum = 0 := by
        apply List.sum_eq_zero
        intro x hx
        obtain ⟨y, hy, hyx⟩ := List.mem_map.mp hx
        rw [List.eq_of_mem_replicate hy] at hyx
        rw [← hyx]
        ring
      rw [hs, zero_div, Rat.cast_zero, Real.sqrt_zero]
      norm_num
    unfold autoCorrelateVal
    rw [if_pos h0]

/-- Witness for C5: a concrete oracle reporting zero energy makes
`estimateFrequency` return no pitch. -/
theorem estimateFrequency_gating_witness :
    (estimateFrequencyS (fun _ => Except.ok ⟨0, 0, 0, 0⟩) ⟨[], [], []⟩
      (BufRef.float 0) 16000).2 = none :=
  estimateFrequency_gating.1 (fun _ => Except.ok ⟨0, 0, 0, 0⟩) ⟨[], [], []⟩
    (BufRef.float 0) 16000 ⟨0, 0, 0, 0⟩ rfl (Or.inl (by norm_num))

/-- C8: `detectPitch` never propagates an exception — the embedding is a
total function into an optional result — and every internal failure path
degrades to `null`: an input shorter than 1024 samples, and an error
thrown during feature extraction (the only throwing site of the pipeline,
caught inside `estimateFrequency`), both yield a `null` result. -/
theorem detectPitch_degrades (o : Oracle) (h : AudioHeap)
    (hbad : h.pcm.length < 1024 ∨ o (analysisBuffer h) = .error ()) :
    (detectPitchS o h).2 = none := by
  by_cases hlen : h.pcm.length < 1024
  · unfold detectPitchS
    rw [if_pos hlen]
  · have herr : o (analysisBuffer h) = .error () := hbad.resolve_left hlen
    unfold detectPitchS
    rw [if_neg hlen]
    rcases hc : convertToFloat32 h.pcm h.bufs with ⟨b1, r1⟩
    dsimp only
    have herr2 : o (deref (ensurePowerOfTwoBuffer b1 r1).1
        (ensurePowerOfTwoBuffer b1 r1).2) = .error () := by
      unfold analysisBuffer analysisView at herr
      rw [hc] at herr
      exact herr
    have hfq := estimateFrequencyS_error o b1 r1 16000 herr2
    rcases hF : estimateFrequencyS o b1 r1 16000 with ⟨b2, fq⟩
    rw [hF] at hfq
    dsimp only at hfq
    dsimp only
    rw [hfq]

/-- Witness for C8: a concrete always-throwing extractor degrades to a
`null` result. -/
theorem detectPitch_degrades_witness :
    (detectPitchS (fun _ => Except.error ())
      ⟨List.replicate 2048 0, ⟨[], [], []⟩⟩).2 = none :=
  detectPitch_degrades (fun _ => Except.error ())
    ⟨List.replicate 2048 0, ⟨[], [], []⟩⟩ (Or.inr rfl)

/-- C9: `detectPitch` never modifies the caller's PCM samples: conversion
copies them into the reusable float buffer and the in-place windowing
mutates only the internal buffers, so the PCM component of the heap is
unchanged by any call. -/
theorem detectPitch_preserves_pcm (o : Oracle) (h : AudioHeap) :
    (detectPitchS o h).1.pcm = h.pcm := by
  unfold detectPitchS
  by_cases hlen : h.pcm.length < 1024
  · rw [if_pos hlen]
  · rw [if_neg hlen]
    rcases hc : convertToFloat32 h.pcm h.bufs with ⟨b1, r1⟩
    dsimp only
    rcases hF : estimateFrequencyS o b1 r1 16000 with ⟨b2, fq⟩
    dsimp only
    cases fq with
    | none => rfl
    | some v =>
      dsimp only
      by_cases hv : v = 0
      · rw [if_pos hv]
      · rw [if_neg hv]

/-- C10: the result of `detectPitch` depends only on the first 2048
samples of the input.  With the float buffer at its initialized size 2048,
any two PCM inputs of length at least 1024 agreeing on their first 2048
elements (hence agreeing entirely when shorter) produce equal results,
because the conversion truncates to `min(pcmData.length,
floatBuffer.length)` samples. -/
theorem detectPitch_first2048 (o : Oracle) (pcm1 pcm2 : List ℤ)
    (bufs : AudioBufs) (h1 : 1024 ≤ pcm1.length) (h2 : 1024 ≤ pcm2.length)
    (hpre : pcm1.take 2048 = pcm2.take 2048)
    (hfb : bufs.floatBuf.length = 2048) :
    (detectPitchS o ⟨pcm1, bufs⟩).2 = (detectPitchS o ⟨pcm2, bufs⟩).2 := by
  have hlen := congrArg List.length hpre
  simp only [List.length_take] at hlen
  have hL : min pcm1.length bufs.floatBuf.length =
      min pcm2.length bufs.floatBuf.length := by omega
  have hm2048 : min pcm2.length bufs.floatBuf.length ≤ 2048 := by omega
  have htake : pcm1.take (min pcm2.length bufs.floatBuf.length) =
      pcm2.take (min pcm2.length bufs.floatBuf.length) := by
    have t1 : pcm1.take (min pcm2.length bufs.floatBuf.length) =
        (pcm1.take 2048).take (min pcm2.length bufs.floatBuf.length) := by
      rw [List.take_take, min_eq_left hm2048]
    rw [t1, hpre, List.take_take, min_eq_left hm2048]
  have hconv : convertToFloat32 pcm1 bufs = convertToFloat32 pcm2 bufs := by
    unfold convertToFloat32
    rw [hL, htake]
  unfold detectPitchS
  rw [if_neg (show ¬ pcm1.length < 1024 by omega),
    if_neg (show ¬ pcm2.length < 1024 by omega)]
  dsimp only
  rw [hconv]
  rcases hc : convertToFloat32 pcm2 bufs with ⟨b1, r1⟩
  dsimp only
  rcases hF : estimateFrequencyS o b1 r1 16000 with ⟨b2, fq⟩
  dsimp only
  cases fq with
  | none => rfl
  | some v =>
    dsimp only
    by_cases hv : v = 0
    · rw [if_pos hv, if_pos hv]
    · rw [if_neg hv, if_neg hv]

/-- Witness for C10 at a concrete 2048-sample zero input and initialized
buffers. -/
theorem detectPitch_first2048_witness :
    (detectPitchS (fun _ => Except.error ())
        ⟨List.replicate 2048 0, ⟨List.replicate 2048 0, [], []⟩⟩).2 =
      (detectPitchS (fun _ => Except.error ())
        ⟨List.replicate 2048 0, ⟨List.replicate 2048 0, [], []⟩⟩).2 :=
  detectPitch_first2048 (fun _ => Except.error ())
    (List.replicate 2048 0) (List.replicate 2048 0)
    ⟨List.replicate 2048 0, [], []⟩
    (by simp only [List.length_replicate]; norm_num)
    (by simp only [List.length_replicate]; norm_num) rfl
    (by simp only [List.length_replicate])

end PitchDetect
